import Mathlib

/-!
Verification of the route-optimization engine in src/main.py (class RouteOptimization).

The Python program is embedded shallowly:

* Python dicts become association lists with first-match lookup and
  in-place update (new keys appended at the end, as CPython dicts do).
* The road graph (a defaultdict of adjacency lists) becomes an
  insertion-ordered list of directed edge records; looking up a city's
  adjacency list filters that list, preserving the per-city order of the
  Python lists.
* heapq is modeled as a multiset: heappush conses, heappop removes the
  (weight, node) pair that is minimal in the lexicographic order, exactly
  the pair heapq would pop (all live pairs are compared as Python tuples).
* The unbounded while-loop of dijkstra becomes a fueled loop; the fuel
  passed by the wrapper is proved sufficient below, so the fuel-exhausted
  branch is unreachable and the wrapper is a faithful model.
* The mutable instance state (road index and route cache) is threaded
  explicitly; raising ValueError becomes returning Except.error together
  with the state at the moment of the raise (the road index may have been
  extended with empty dicts by defaultdict accesses, as in Python).
-/

/-- An adjacency record as stored in the Python lists: (neighbor, length, time, cost). -/
abbrev Edge := Nat × Nat × Nat × Nat

/-- The road graph: an insertion-ordered list of (city, adjacency record) pairs.
Python's defaultdict(list) groups these by city; only the per-city subsequences
are observable, and those are preserved by this flat representation. -/
abbrev Graph := List (Nat × Edge)

/-- Python dict lookup (first binding wins; keys are unique by construction). -/
def getA {α β : Type} [DecidableEq α] : List (α × β) → α → Option β
  | [], _ => none
  | (k, v) :: rest, a => if a = k then some v else getA rest a

/-- Python dict assignment: update in place, or append a fresh key at the end. -/
def setA {α β : Type} [DecidableEq α] : List (α × β) → α → β → List (α × β)
  | [], a, b => [(a, b)]
  | (k, v) :: rest, a, b => if a = k then (a, b) :: rest else (k, v) :: setA rest a b

/-- The adjacency list graph[c]: all records whose source city is c, in order. -/
def adj (g : Graph) (c : Nat) : List Edge :=
  (g.filter (fun p => p.1 == c)).map Prod.snd

/-- The Python expression [length, time, cost][weight_idx]; every call site of
dijkstra passes 0, 1 or 2, so only those indices are exercised. -/
def pick (wIdx l t c : Nat) : Nat :=
  if wIdx = 0 then l else if wIdx = 1 then t else c

/-- Lexicographic comparison of (weight, node) pairs, i.e. Python tuple order. -/
def pairLe (a b : Nat × Nat) : Bool :=
  decide (a.1 < b.1) || (decide (a.1 = b.1) && decide (a.2 ≤ b.2))

/-- The minimal element of a nonempty pq, scanning left to right. -/
def minEntry (x : Nat × Nat) : List (Nat × Nat) → Nat × Nat
  | [] => x
  | y :: ys => minEntry (if pairLe x y then x else y) ys

/-- heapq.heappop: remove and return the tuple-minimal element. -/
def popMin : List (Nat × Nat) → Option ((Nat × Nat) × List (Nat × Nat))
  | [] => none
  | x :: xs => some (minEntry x xs, (x :: xs).erase (minEntry x xs))

/-- Walking the parent pointers from a node back to the start and reversing,
as the path-reconstruction while-loop does.  The fuel argument bounds the
number of pointer steps; callers pass a provably sufficient amount. -/
def buildPath (parent : List (Nat × Nat)) : Nat → Nat → List Nat
  | 0, c => [c]
  | fuel + 1, c =>
    match getA parent c with
    | none => [c]
    | some p => buildPath parent fuel p ++ [c]

/-- Mutable state of one dijkstra run: the frontier heap, the visited set,
the parent pointers and the tentative distances. -/
structure DState where
  pq : List (Nat × Nat)
  visited : List Nat
  parent : List (Nat × Nat)
  dist : List (Nat × Nat)

/-- The for-loop over graph[current_node]: skip visited neighbors, and relax
(update distance and parent, push on the heap) exactly when the tentative
distance is absent or strictly improved. -/
def relaxEdges (wIdx cw cn : Nat) : List Edge → DState → DState
  | [], st => st
  | (nbr, l, t, c) :: rest, st =>
    if nbr ∈ st.visited then relaxEdges wIdx cw cn rest st
    else
      let nd := cw + pick wIdx l t c
      match getA st.dist nbr with
      | some dn =>
        if nd < dn then
          relaxEdges wIdx cw cn rest
            ⟨(nd, nbr) :: st.pq, st.visited, setA st.parent nbr cn, setA st.dist nbr nd⟩
        else relaxEdges wIdx cw cn rest st
      | none =>
        relaxEdges wIdx cw cn rest
          ⟨(nd, nbr) :: st.pq, st.visited, setA st.parent nbr cn, setA st.dist nbr nd⟩

/-- The while-loop of dijkstra.  Returns none if the fuel runs out (proved
unreachable for the wrapper's fuel), some none when the heap is exhausted
(Python: return None, None), and some (some (path, w)) when the target is
popped. -/
def dijkstraLoop (g : Graph) (e wIdx : Nat) : Nat → DState → Option (Option (List Nat × Nat))
  | 0, _ => none
  | fuel + 1, st =>
    match popMin st.pq with
    | none => some none
    | some ((cw, cn), pq2) =>
      if cn ∈ st.visited then dijkstraLoop g e wIdx fuel ⟨pq2, st.visited, st.parent, st.dist⟩
      else
        if cn = e then some (some (buildPath st.parent (st.parent.length + 1) cn, cw))
        else
          dijkstraLoop g e wIdx fuel
            (relaxEdges wIdx cw cn (adj g cn)
              ⟨pq2, cn :: st.visited, st.parent, st.dist⟩)

/-- RouteOptimization.dijkstra.  The Python (None, None) result is modeled as
none, and (path, weight) as some (path, weight).  The fuel g.length + 2 is
proved sufficient (each directed edge record is relaxed at most once, since a
node is finalized at most once). -/
def dijkstra (g : Graph) (s e wIdx : Nat) : Option (List Nat × Nat) :=
  match dijkstraLoop g e wIdx (g.length + 2) ⟨[(0, s)], [], [], [(s, 0)]⟩ with
  | some r => r
  | none => none

/-- The inner dicts of the road index: neighbor -> (length, time, cost). -/
abbrev InnerIndex := List (Nat × (Nat × Nat × Nat))

/-- The road index _road_index: city -> neighbor -> (length, time, cost). -/
abbrev RoadIndex := List (Nat × InnerIndex)

/-- One assignment self._road_index[city][neighbor] = (length, time, cost);
the defaultdict creates the inner dict on demand. -/
def setIdx (idx : RoadIndex) (city nbr : Nat) (w : Nat × Nat × Nat) : RoadIndex :=
  setA idx city (setA ((getA idx city).getD []) nbr w)

/-- RouteOptimization.build_road_index, as the pure function from the graph to
the index it stores in self._road_index.  The Python double loop visits every
edge record once; per (city, neighbor) key the last record wins, which this
fold reproduces. -/
def build_road_index (g : Graph) : RoadIndex :=
  g.foldl (fun idx p => setIdx idx p.1 p.2.1 p.2.2) []

/-- The index lookup self._road_index[a].get(b) as a pure observation
(without the defaultdict side effect, which is modeled in indexAccess). -/
def idxLookup (idx : RoadIndex) (a b : Nat) : Option (Nat × Nat × Nat) :=
  (getA idx a).bind (fun d => getA d b)

/-- The mutable instance state of RouteOptimization that get_route_params
reads and writes: _road_index and _route_cache. -/
structure RState where
  road_index : RoadIndex
  route_cache : List (List Nat × (Nat × Nat × Nat))
deriving DecidableEq

/-- The defaultdict read self._road_index[start]: returns the inner dict,
inserting a fresh empty one when the key is absent (a genuine mutation that
the error path of get_route_params can leave behind). -/
def indexAccess (st : RState) (a : Nat) : InnerIndex × RState :=
  match getA st.road_index a with
  | some d => (d, st)
  | none => ([], { st with road_index := st.road_index ++ [(a, [])] })

/-- The summation loop of get_route_params over the consecutive pairs of the
route, accumulating the three totals and raising on a missing edge. -/
def routeParamsLoop : List (Nat × Nat) → RState → Nat → Nat → Nat →
    (Except String (Nat × Nat × Nat)) × RState
  | [], st, tl, tt, tc => (Except.ok (tl, tt, tc), st)
  | (a, b) :: rest, st, tl, tt, tc =>
    let acc := indexAccess st a
    match getA acc.1 b with
    | some (l, t, c) => routeParamsLoop rest acc.2 (tl + l) (tt + t) (tc + c)
    | none =>
      (Except.error ("Дорога между " ++ toString a ++ " и " ++ toString b ++ " не найдена"),
       acc.2)

/-- RouteOptimization.get_route_params: cache lookup keyed by the exact node
sequence; on a miss, sum the edge parameters along the route and store the
triple in the cache after the loop completes. -/
def get_route_params (st : RState) (route : List Nat) :
    (Except String (Nat × Nat × Nat)) × RState :=
  match getA st.route_cache route with
  | some params => (Except.ok params, st)
  | none =>
    match routeParamsLoop (route.zip route.tail) st 0 0 0 with
    | (Except.ok totals, st2) =>
      (Except.ok totals, { st2 with route_cache := st2.route_cache ++ [(route, totals)] })
    | (Except.error m, st2) => (Except.error m, st2)

/-- The three criterion tags 'Д', 'В', 'С' of the Python dicts. -/
inductive Crit
  | D
  | V
  | S
deriving DecidableEq

/-- The weight index the tag maps to in weights = Д:0, В:1, С:2. -/
def critIdx : Crit → Nat
  | Crit.D => 0
  | Crit.V => 1
  | Crit.S => 2

/-- One entry of candidate_routes: the route plus its cached parameter triple. -/
structure Candidate where
  route : List Nat
  len : Nat
  time : Nat
  cost : Nat
deriving DecidableEq

/-- The dict access candidate[crit] for crit in Д, В, С. -/
def candVal (c : Candidate) : Crit → Nat
  | Crit.D => c.len
  | Crit.V => c.time
  | Crit.S => c.cost

/-- Python min over a nonempty list (the empty case is unreachable: the filter
loop breaks first). -/
def natMin : List Nat → Nat
  | [] => 0
  | x :: xs => xs.foldl Nat.min x

/-- The candidate-collection loop of find_compromise_route: walk the three
per-criterion results in the order Д, В, С, drop the misses, deduplicate by
exact route, and annotate each fresh route through get_route_params. -/
def collectLoop : List (Option (List Nat)) → RState → List (List Nat) → List Candidate →
    (Except String (List Candidate)) × RState
  | [], st, _, acc => (Except.ok acc, st)
  | none :: rest, st, seen, acc => collectLoop rest st seen acc
  | some r :: rest, st, seen, acc =>
    if r ∈ seen then collectLoop rest st seen acc
    else
      match get_route_params st r with
      | (Except.ok (l, t, c), st2) =>
        collectLoop rest st2 (seen ++ [r]) (acc ++ [⟨r, l, t, c⟩])
      | (Except.error m, st2) => (Except.error m, st2)

/-- One filtering round: keep the candidates whose value under the criterion
equals the round's minimum. -/
def keepMin (cs : List Candidate) (cr : Crit) : List Candidate :=
  cs.filter (fun c => candVal c cr == natMin (cs.map (fun d => candVal d cr)))

/-- The priority-filtering loop: successive rounds in priority order, breaking
out (equivalently: doing nothing) once the candidate list is empty. -/
def filterRounds (cs : List Candidate) (ps : List Crit) : List Candidate :=
  ps.foldl (fun cur cr => if cur.isEmpty then cur else keepMin cur cr) cs

/-- RouteOptimization.find_compromise_route: run the search for the three
criteria, collect the unique routes with their parameters, return None when
none survive, otherwise filter by the priorities and return the first
remaining route. -/
def find_compromise_route (g : Graph) (sid eid : Nat) (priorities : List Crit)
    (st : RState) : (Except String (Option (List Nat))) × RState :=
  let r0 := (dijkstra g sid eid 0).map Prod.fst
  let r1 := (dijkstra g sid eid 1).map Prod.fst
  let r2 := (dijkstra g sid eid 2).map Prod.fst
  match collectLoop [r0, r1, r2] st [] [] with
  | (Except.error m, st2) => (Except.error m, st2)
  | (Except.ok cands, st2) =>
    if cands.isEmpty then (Except.ok none, st2)
    else
      let final := filterRounds cands priorities
      (Except.ok (final.head?.map Candidate.route), st2)

/-- One parsed line of the [ROADS] section: (cid1, cid2, length, time, cost). -/
abbrev RoadSpec := Nat × Nat × Nat × Nat × Nat

/-- The two adjacency records one [ROADS] line appends: the edge in both
directions with identical weights (lines 135-136 of the source). -/
def roadPair : RoadSpec → Graph
  | (c1, c2, l, t, c) => [(c1, (c2, l, t, c)), (c2, (c1, l, t, c))]

/-- The [ROADS] part of parse_input: each line appends the record to both
cities' adjacency lists (edges are stored symmetrically). -/
def parse_roads (rs : List RoadSpec) : Graph :=
  rs.foldl (fun g r => g ++ roadPair r) []

/-- One parsed request line: (start name, end name, priority tags). -/
abbrev RequestSpec := String × String × List Crit

/-- The dict comprehension city_to_id = name -> cid (later entries overwrite). -/
def invertCities (cities : List (Nat × String)) : List (String × Nat) :=
  cities.foldl (fun m p => setA m p.2 p.1) []

/-- The list comprehension [cities[cid] for cid in route]; a missing id would
raise KeyError, modeled as none. -/
def cityNames (cities : List (Nat × String)) : List Nat → Option (List String)
  | [] => some []
  | cid :: rest =>
    match getA cities cid with
    | none => none
    | some name => (cityNames cities rest).map (fun ns => name :: ns)

/-- ' -> '.join(city_names). -/
def joinArrow : List String → String
  | [] => ""
  | [x] => x
  | x :: y :: rest => x ++ " -> " ++ joinArrow (y :: rest)

/-- Formatting one output row for a labeled route (or the not-found row),
including the get_route_params call the f-string makes. -/
def routeLine (cities : List (Nat × String)) (label : String) (st : RState)
    (r : Option (List Nat)) : (Except String String) × RState :=
  match r with
  | none => (Except.ok (label ++ ": Маршрут не найден"), st)
  | some route =>
    match cityNames cities route with
    | none => (Except.error ("KeyError: city id"), st)
    | some names =>
      match get_route_params st route with
      | (Except.ok (l, t, c), st2) =>
        (Except.ok
          (label ++ ": " ++ joinArrow names ++ " | Д=" ++ toString l ++ ", В=" ++
            toString t ++ ", С=" ++ toString c),
         st2)
      | (Except.error m, st2) => (Except.error m, st2)

/-- The body of the per-request loop in calculate: three per-criterion rows
(in the fixed order ДЛИНА, ВРЕМЯ, СТОИМОСТЬ) followed by the compromise row. -/
def processRequest (cities : List (Nat × String)) (cityToId : List (String × Nat))
    (g : Graph) (st : RState) (req : RequestSpec) : (Except String (List String)) × RState :=
  match getA cityToId req.1 with
  | none => (Except.error ("KeyError: " ++ req.1), st)
  | some sid =>
    match getA cityToId req.2.1 with
    | none => (Except.error ("KeyError: " ++ req.2.1), st)
    | some eid =>
      let r0 := (dijkstra g sid eid 0).map Prod.fst
      let r1 := (dijkstra g sid eid 1).map Prod.fst
      let r2 := (dijkstra g sid eid 2).map Prod.fst
      match routeLine cities ("ДЛИНА") st r0 with
      | (Except.error m, st1) => (Except.error m, st1)
      | (Except.ok line0, st1) =>
        match routeLine cities ("ВРЕМЯ") st1 r1 with
        | (Except.error m, st2) => (Except.error m, st2)
        | (Except.ok line1, st2) =>
          match routeLine cities ("СТОИМОСТЬ") st2 r2 with
          | (Except.error m, st3) => (Except.error m, st3)
          | (Except.ok line2, st3) =>
            match find_compromise_route g sid eid req.2.2 st3 with
            | (Except.error m, st4) => (Except.error m, st4)
            | (Except.ok rc, st4) =>
              match routeLine cities ("КОМПРОМИСС") st4 rc with
              | (Except.error m, st5) => (Except.error m, st5)
              | (Except.ok line3, st5) => (Except.ok [line0, line1, line2, line3], st5)

/-- The loop over requests, accumulating output_lines. -/
def processRequests (cities : List (Nat × String)) (cityToId : List (String × Nat))
    (g : Graph) : List RequestSpec → RState → List String →
    (Except String (List String)) × RState
  | [], st, acc => (Except.ok acc, st)
  | req :: rest, st, acc =>
    match processRequest cities cityToId g st req with
    | (Except.ok lines, st2) => processRequests cities cityToId g rest st2 (acc ++ lines)
    | (Except.error m, st2) => (Except.error m, st2)

/-- The try-block of calculate after parsing: build the graph and its index,
invert the city dict, process the requests. -/
def calculateBody (cities : List (Nat × String)) (roadSpecs : List RoadSpec)
    (requests : List RequestSpec) : Except String (List String) :=
  let g := parse_roads roadSpecs
  let st0 : RState := { road_index := build_road_index g, route_cache := [] }
  (processRequests cities (invertCities cities) g requests st0 []).1

/-- RouteOptimization.calculate: on success the output lines are written; any
exception from the body is caught by the blanket except-pass, so nothing is
written (modeled as none).  The finally-block clears the instance state in
both cases, so no state survives. -/
def calculate (cities : List (Nat × String)) (roadSpecs : List RoadSpec)
    (requests : List RequestSpec) : Option (List String) :=
  match calculateBody cities roadSpecs requests with
  | Except.ok lines => some lines
  | Except.error _ => none

/-- An edge step of weight wt from a to b under the given criterion: some
adjacency record of a leads to b and its selected component is wt. -/
def edgeW (g : Graph) (wIdx a b wt : Nat) : Prop :=
  ∃ l t c, (b, l, t, c) ∈ adj g a ∧ pick wIdx l t c = wt

/-- A path through the graph together with its total weight under the
criterion: consecutive elements are joined by edges, and the cost is the sum
of the selected components (one summand per chosen parallel edge). -/
inductive PathCost (g : Graph) (wIdx : Nat) : List Nat → Nat → Prop
  | single (a : Nat) : PathCost g wIdx [a] 0
  | cons {a b : Nat} {rest : List Nat} {wt c : Nat} :
      edgeW g wIdx a b wt → PathCost g wIdx (b :: rest) c →
      PathCost g wIdx (a :: b :: rest) (wt + c)

/-- Modelled from the spec (section 8): the cost of a path computed by
manually summing the edge weights along it via the road index, used to state
the cache-correctness refinement. -/
def manualRouteParams (idx : RoadIndex) : List Nat → Option (Nat × Nat × Nat)
  | [] => some (0, 0, 0)
  | [_] => some (0, 0, 0)
  | a :: b :: rest =>
    match idxLookup idx a b, manualRouteParams idx (b :: rest) with
    | some (l, t, c), some (tl, tt, tc) => some (l + tl, t + tt, c + tc)
    | _, _ => none

/-- The criterion component of an adjacency record. -/
def pickE (wIdx : Nat) (x : Edge) : Nat := pick wIdx x.2.1 x.2.2.1 x.2.2.2

/-- Pure summation of edge parameters over a list of consecutive pairs, the
side-effect-free skeleton of the summation loop (none on a missing edge). -/
def sumPairs (idx : RoadIndex) : List (Nat × Nat) → Option (Nat × Nat × Nat)
  | [] => some (0, 0, 0)
  | (a, b) :: rest =>
    match idxLookup idx a b, sumPairs idx rest with
    | some (l, t, c), some (tl, tt, tc) => some (l + tl, t + tt, c + tc)
    | _, _ => none

/-- The parameters of the last adjacency record from a to b, i.e. the record
that wins when build_road_index overwrites duplicates. -/
def lastRec (g : Graph) (a b : Nat) : Option (Nat × Nat × Nat) :=
  ((g.filter (fun p => p.1 == a && p.2.1 == b)).map (fun p => p.2.2)).getLast?

/-- Some path of some total weight leads from s to e. -/
def Reaches (g : Graph) (wIdx s e : Nat) : Prop :=
  ∃ p c, PathCost g wIdx p c ∧ p.head? = some s ∧ p.getLast? = some e

/-- d is a lower bound on the weight of every path from s to v. -/
def OptimalTo (g : Graph) (wIdx s v d : Nat) : Prop :=
  ∀ q c, PathCost g wIdx q c → q.head? = some s → q.getLast? = some v → d ≤ c

/-- The parent pointers reconstruct, from node n, a duplicate-free path from s
to n of weight d whose interior lies in the visited set; the reconstruction is
insensitive to any fuel at least the path length. -/
def ChainVal (g : Graph) (wIdx s : Nat) (parent : List (Nat × Nat))
    (visited : List Nat) (n d : Nat) : Prop :=
  ∃ p, PathCost g wIdx p d ∧ p.head? = some s ∧ p.getLast? = some n ∧ p.Nodup ∧
    (∀ x ∈ p.dropLast, x ∈ visited) ∧ (∀ x ∈ p.tail, (getA parent x).isSome) ∧
    (∀ fuel, p.length ≤ fuel + 1 → buildPath parent fuel n = p)

/-- The inductive invariant of the dijkstra loop (all parts except edge
relaxation, which is stated separately because it is established edge by
edge while the neighbor loop runs). -/
structure InvB (g : Graph) (wIdx s e : Nat) (st : DState) : Prop where
  pkeys : (st.parent.map Prod.fst).Nodup
  pstart : getA st.parent s = none
  dstart : getA st.dist s = some 0
  svis : s ∈ st.visited
  evis : e ∉ st.visited
  chain : ∀ n d, getA st.dist n = some d → ChainVal g wIdx s st.parent st.visited n d
  inpq : ∀ n d, n ∉ st.visited → getA st.dist n = some d → (d, n) ∈ st.pq
  pqdist : ∀ w n, (w, n) ∈ st.pq → n ∉ st.visited → ∃ d, getA st.dist n = some d ∧ d ≤ w
  vopt : ∀ v, v ∈ st.visited → ∃ d, getA st.dist v = some d ∧ OptimalTo g wIdx s v d

/-- Every edge out of a finalized node has been relaxed. -/
def Relaxed (g : Graph) (wIdx : Nat) (st : DState) : Prop :=
  ∀ v, v ∈ st.visited → ∀ x, x ∈ adj g v → ∃ dv db, getA st.dist v = some dv ∧
    getA st.dist x.1 = some db ∧ db ≤ dv + pickE wIdx x

/-- Termination measure of the loop: heap size plus the number of adjacency
records whose source is still unvisited (each iteration strictly decreases it). -/
def Mg (g : Graph) (st : DState) : Nat :=
  st.pq.length + (g.filter (fun p => decide (p.1 ∉ st.visited))).length

/-- The state dijkstra starts the loop from. -/
def initD (s : Nat) : DState := ⟨[(0, s)], [], [], [(s, 0)]⟩

theorem getA_setA_self {α β : Type} [DecidableEq α] (l : List (α × β)) (a : α) (b : β) :
    getA (setA l a b) a = some b := by
  induction l with
  | nil => simp [getA, setA]
  | cons p rest ih =>
    obtain ⟨k, v⟩ := p
    by_cases h : a = k
    · subst h; simp [getA, setA]
    · simp [getA, setA, h, ih]

theorem getA_setA_ne {α β : Type} [DecidableEq α] (l : List (α × β)) (a a2 : α) (b : β)
    (h : a2 ≠ a) : getA (setA l a b) a2 = getA l a2 := by
  induction l with
  | nil => simp [getA, setA, h]
  | cons p rest ih =>
    obtain ⟨k, v⟩ := p
    by_cases hk : a = k
    · subst hk; simp [getA, setA, h]
    · by_cases h2 : a2 = k
      · subst h2; simp [getA, setA, hk]
      · simp [getA, setA, hk, h2, ih]

theorem getA_isSome_setA {α β : Type} [DecidableEq α] (l : List (α × β)) (a x : α) (b : β)
    (h : (getA l x).isSome) : (getA (setA l a b) x).isSome := by
  by_cases hx : x = a
  · subst hx; simp [getA_setA_self]
  · rw [getA_setA_ne l a x b hx]; exact h

theorem mem_keys_setA {α β : Type} [DecidableEq α] (l : List (α × β)) (a x : α) (b : β)
    (h : x ∈ (setA l a b).map Prod.fst) : x = a ∨ x ∈ l.map Prod.fst := by
  induction l with
  | nil => simpa [setA] using h
  | cons p rest ih =>
    obtain ⟨k, v⟩ := p
    by_cases hk : a = k
    · subst hk
      simp only [setA, if_pos rfl] at h
      simpa using h
    · simp only [setA, if_neg hk, List.map_cons, List.mem_cons] at h
      rcases h with h | h
      · exact Or.inr (by simp only [List.map_cons, List.mem_cons]; exact Or.inl h)
      · rcases ih h with h2 | h2
        · exact Or.inl h2
        · exact Or.inr (by simp only [List.map_cons, List.mem_cons]; exact Or.inr h2)

theorem keys_nodup_setA {α β : Type} [DecidableEq α] (l : List (α × β)) (a : α) (b : β)
    (h : (l.map Prod.fst).Nodup) : ((setA l a b).map Prod.fst).Nodup := by
  induction l with
  | nil => simp [setA]
  | cons p rest ih =>
    obtain ⟨k, v⟩ := p
    simp only [List.map_cons, List.nodup_cons] at h
    by_cases hk : a = k
    · subst hk
      have hrw : setA ((a, v) :: rest) a b = (a, b) :: rest := by
        simp [setA]
      rw [hrw]
      simp only [List.map_cons, List.nodup_cons]
      exact h
    · simp only [setA, if_neg hk, List.map_cons, List.nodup_cons]
      refine ⟨fun hmem => ?_, ih h.2⟩
      rcases mem_keys_setA rest a k b hmem with h2 | h2
      · exact hk h2.symm
      · exact h.1 h2

theorem getA_append_of_some {α β : Type} [DecidableEq α] (l1 l2 : List (α × β)) (a : α)
    (v : β) (h : getA l1 a = some v) : getA (l1 ++ l2) a = some v := by
  induction l1 with
  | nil => simp [getA] at h
  | cons p rest ih =>
    obtain ⟨k, w⟩ := p
    by_cases hk : a = k
    · subst hk; simpa [getA] using h
    · simp only [getA, if_neg hk] at h
      simpa [getA, hk] using ih h

theorem getA_append_of_none {α β : Type} [DecidableEq α] (l1 l2 : List (α × β)) (a : α)
    (h : getA l1 a = none) : getA (l1 ++ l2) a = getA l2 a := by
  induction l1 with
  | nil => simp [getA]
  | cons p rest ih =>
    obtain ⟨k, w⟩ := p
    by_cases hk : a = k
    · subst hk; simp [getA] at h
    · simp only [getA, if_neg hk] at h
      simpa [getA, hk] using ih h

theorem pairLe_refl (a : Nat × Nat) : pairLe a a = true := by
  simp [pairLe]

theorem pairLe_trans {a b c : Nat × Nat} (h1 : pairLe a b = true) (h2 : pairLe b c = true) :
    pairLe a c = true := by
  simp only [pairLe, Bool.or_eq_true, Bool.and_eq_true, decide_eq_true_eq] at *
  omega

theorem pairLe_total_flip {a b : Nat × Nat} (h : ¬ pairLe a b = true) : pairLe b a = true := by
  simp only [pairLe, Bool.or_eq_true, Bool.and_eq_true, decide_eq_true_eq] at *
  omega

theorem pairLe_fst_le {a b : Nat × Nat} (h : pairLe a b = true) : a.1 ≤ b.1 := by
  simp only [pairLe, Bool.or_eq_true, Bool.and_eq_true, decide_eq_true_eq] at h
  omega

theorem minEntry_mem (x : Nat × Nat) (ys : List (Nat × Nat)) : minEntry x ys ∈ x :: ys := by
  induction ys generalizing x with
  | nil => simp [minEntry]
  | cons y ys ih =>
    simp only [minEntry]
    by_cases hxy : pairLe x y = true
    · simp only [if_pos hxy]
      rcases List.mem_cons.mp (ih x) with h | h
      · rw [h]; exact List.mem_cons_self x (y :: ys)
      · exact List.mem_cons.mpr (Or.inr (List.mem_cons.mpr (Or.inr h)))
    · simp only [if_neg hxy]
      rcases List.mem_cons.mp (ih y) with h | h
      · rw [h]; exact List.mem_cons.mpr (Or.inr (List.mem_cons_self y ys))
      · exact List.mem_cons.mpr (Or.inr (List.mem_cons.mpr (Or.inr h)))

theorem minEntry_le (x : Nat × Nat) (ys : List (Nat × Nat)) :
    ∀ z ∈ x :: ys, pairLe (minEntry x ys) z = true := by
  induction ys generalizing x with
  | nil =>
    intro z hz
    simp only [List.mem_singleton] at hz
    subst hz
    exact pairLe_refl z
  | cons y ys ih =>
    intro z hz
    simp only [minEntry]
    by_cases hxy : pairLe x y = true
    · simp only [if_pos hxy]
      rcases List.mem_cons.mp hz with h1 | h1
      · rw [h1]
        exact ih x x (List.mem_cons_self x ys)
      · rcases List.mem_cons.mp h1 with h2 | h2
        · rw [h2]
          exact pairLe_trans (ih x x (List.mem_cons_self x ys)) hxy
        · exact ih x z (List.mem_cons.mpr (Or.inr h2))
    · simp only [if_neg hxy]
      have hyx : pairLe y x = true := pairLe_total_flip hxy
      rcases List.mem_cons.mp hz with h1 | h1
      · rw [h1]
        exact pairLe_trans (ih y y (List.mem_cons_self y ys)) hyx
      · rcases List.mem_cons.mp h1 with h2 | h2
        · rw [h2]
          exact ih y y (List.mem_cons_self y ys)
        · exact ih y z (List.mem_cons.mpr (Or.inr h2))

theorem popMin_none_iff (pq : List (Nat × Nat)) : popMin pq = none ↔ pq = [] := by
  cases pq <;> simp [popMin]

theorem popMin_spec {pq : List (Nat × Nat)} {m : Nat × Nat} {rest : List (Nat × Nat)}
    (h : popMin pq = some (m, rest)) :
    m ∈ pq ∧ rest = pq.erase m ∧ ∀ z ∈ pq, pairLe m z = true := by
  cases pq with
  | nil => simp [popMin] at h
  | cons x xs =>
    simp only [popMin, Option.some.injEq, Prod.mk.injEq] at h
    obtain ⟨h1, h2⟩ := h
    subst h1
    exact ⟨minEntry_mem x xs, h2.symm, minEntry_le x xs⟩

theorem buildPath_self_mem (parent : List (Nat × Nat)) (fuel n : Nat) :
    n ∈ buildPath parent fuel n := by
  cases fuel with
  | zero => simp [buildPath]
  | succ f =>
    simp only [buildPath]
    cases getA parent n with
    | none => simp
    | some p => simp

theorem buildPath_setA (parent : List (Nat × Nat)) (k v : Nat) :
    ∀ fuel n, (∀ x ∈ buildPath parent fuel n, x ≠ k) →
      buildPath (setA parent k v) fuel n = buildPath parent fuel n := by
  intro fuel
  induction fuel with
  | zero => intro n _; rfl
  | succ f ih =>
    intro n h
    have hn : n ≠ k := h n (buildPath_self_mem parent (f + 1) n)
    have hget : getA (setA parent k v) n = getA parent n := getA_setA_ne parent k n v hn
    cases hp : getA parent n with
    | none => simp [buildPath, hp, hget]
    | some p =>
      simp only [buildPath, hp, hget]
      congr 1
      apply ih
      intro x hx
      apply h
      simp only [buildPath, hp, List.mem_append]
      exact Or.inl hx

theorem pathCost_ne_nil {g : Graph} {wIdx : Nat} {p : List Nat} {c : Nat}
    (h : PathCost g wIdx p c) : p ≠ [] := by
  cases h <;> simp

theorem pathCost_append {g : Graph} {wIdx : Nat} {p : List Nat} {c : Nat}
    (h : PathCost g wIdx p c) :
    ∀ a b wt, p.getLast? = some a → edgeW g wIdx a b wt →
      PathCost g wIdx (p ++ [b]) (c + wt) := by
  induction h with
  | single x =>
    intro a b wt hlast hedge
    have hx : x = a := by simpa using hlast
    subst hx
    have h2 : PathCost g wIdx [x, b] (wt + 0) := PathCost.cons hedge (PathCost.single b)
    simpa using h2
  | cons hedge0 hrest ih =>
    intro a b wt hlast hedge
    rename_i a0 b0 rest wt0 c0
    have hlast2 : (b0 :: rest).getLast? = some a := by
      simpa [List.getLast?_cons_cons] using hlast
    have := PathCost.cons hedge0 (ih a b wt hlast2 hedge)
    simpa [Nat.add_assoc] using this

theorem pathCost_pairs {g : Graph} {wIdx : Nat} {p : List Nat} {c : Nat}
    (h : PathCost g wIdx p c) :
    ∀ ab ∈ p.zip p.tail, ∃ wt, edgeW g wIdx ab.1 ab.2 wt := by
  induction h with
  | single x => simp
  | cons hedge hrest ih =>
    rename_i a b rest wt c0
    intro ab hab
    simp only [List.tail_cons, List.zip_cons_cons, List.mem_cons] at hab
    rcases hab with h1 | h1
    · subst h1; exact ⟨_, hedge⟩
    · exact ih ab (by simpa using h1)

theorem indexAccess_of_some {st : RState} {a : Nat} {d : InnerIndex}
    (h : getA st.road_index a = some d) : indexAccess st a = (d, st) := by
  unfold indexAccess
  rw [h]

theorem indexAccess_cache (st : RState) (a : Nat) :
    ((indexAccess st a).2).route_cache = st.route_cache := by
  unfold indexAccess
  cases getA st.road_index a <;> rfl

theorem indexAccess_get (st : RState) (a b : Nat) :
    getA (indexAccess st a).1 b = idxLookup st.road_index a b := by
  unfold indexAccess idxLookup
  cases getA st.road_index a <;> simp [getA]

theorem indexAccess_lookup (st : RState) (a x y : Nat) :
    idxLookup ((indexAccess st a).2).road_index x y = idxLookup st.road_index x y := by
  unfold indexAccess
  cases h : getA st.road_index a with
  | some d => rfl
  | none =>
    simp only [idxLookup]
    cases hx : getA st.road_index x with
    | some d2 => rw [getA_append_of_some _ _ _ _ hx]
    | none =>
      rw [getA_append_of_none _ _ _ hx]
      by_cases hxa : x = a
      · subst hxa
        simp [getA]
      · simp [getA, hxa]

theorem routeParamsLoop_ok (pairs : List (Nat × Nat)) :
    ∀ (st : RState) (tl tt tc l t c : Nat),
      sumPairs st.road_index pairs = some (l, t, c) →
      routeParamsLoop pairs st tl tt tc = (Except.ok (tl + l, tt + t, tc + c), st) := by
  induction pairs with
  | nil =>
    intro st tl tt tc l t c h
    simp only [sumPairs, Option.some.injEq, Prod.mk.injEq] at h
    obtain ⟨h1, h2, h3⟩ := h
    subst h1; subst h2; subst h3
    simp [routeParamsLoop]
  | cons ab rest ih =>
    obtain ⟨a, b⟩ := ab
    intro st tl tt tc l t c h
    simp only [sumPairs] at h
    cases h1 : idxLookup st.road_index a b with
    | none => rw [h1] at h; simp at h
    | some w =>
      obtain ⟨l0, t0, c0⟩ := w
      rw [h1] at h
      cases h2 : sumPairs st.road_index rest with
      | none => rw [h2] at h; simp at h
      | some sr =>
        obtain ⟨sl, stt, sc⟩ := sr
        rw [h2] at h
        simp only [Option.some.injEq, Prod.mk.injEq] at h
        obtain ⟨hl, ht, hc⟩ := h
        have hout : getA st.road_index a ≠ none := by
          intro hn
          unfold idxLookup at h1
          rw [hn] at h1
          simp at h1
        obtain ⟨d, hd⟩ := Option.ne_none_iff_exists'.mp hout
        simp only [routeParamsLoop]
        rw [indexAccess_of_some hd]
        have hget : getA d b = some (l0, t0, c0) := by
          unfold idxLookup at h1
          rw [hd] at h1
          simpa using h1
        rw [hget]
        have hrec := ih st (tl + l0) (tt + t0) (tc + c0) sl stt sc h2
        show routeParamsLoop rest st (tl + l0) (tt + t0) (tc + c0) =
          (Except.ok (tl + l, tt + t, tc + c), st)
        rw [hrec]
        subst hl; subst ht; subst hc
        simp [Nat.add_assoc]

theorem routeParamsLoop_ok_state (pairs : List (Nat × Nat)) :
    ∀ (st st2 : RState) (tl tt tc : Nat) (r : Nat × Nat × Nat),
      routeParamsLoop pairs st tl tt tc = (Except.ok r, st2) → st2 = st := by
  induction pairs with
  | nil =>
    intro st st2 tl tt tc r h
    simp only [routeParamsLoop, Prod.mk.injEq] at h
    exact h.2.symm
  | cons ab rest ih =>
    obtain ⟨a, b⟩ := ab
    intro st st2 tl tt tc r h
    simp only [routeParamsLoop] at h
    cases hd : getA st.road_index a with
    | none =>
      rw [show indexAccess st a =
          ([], { st with road_index := st.road_index ++ [(a, [])] }) from by
        unfold indexAccess; rw [hd]] at h
      simp [getA] at h
    | some d =>
      rw [indexAccess_of_some hd] at h
      cases hg : getA d b with
      | none => rw [hg] at h; simp at h
      | some w =>
        obtain ⟨l0, t0, c0⟩ := w
        rw [hg] at h
        exact ih st st2 _ _ _ r h

theorem routeParamsLoop_error (pairs : List (Nat × Nat)) :
    ∀ (st : RState) (tl tt tc : Nat),
      sumPairs st.road_index pairs = none →
      ∃ m st2, routeParamsLoop pairs st tl tt tc = (Except.error m, st2) ∧
        st2.route_cache = st.route_cache ∧
        (∀ x y, idxLookup st2.road_index x y = idxLookup st.road_index x y) := by
  induction pairs with
  | nil =>
    intro st tl tt tc h
    simp [sumPairs] at h
  | cons ab rest ih =>
    obtain ⟨a, b⟩ := ab
    intro st tl tt tc h
    simp only [sumPairs] at h
    simp only [routeParamsLoop]
    cases h1 : idxLookup st.road_index a b with
    | none =>
      have hga : getA (indexAccess st a).1 b = none := (indexAccess_get st a b).trans h1
      rw [hga]
      exact ⟨_, _, rfl, indexAccess_cache st a, fun x y => indexAccess_lookup st a x y⟩
    | some w =>
      obtain ⟨l0, t0, c0⟩ := w
      rw [h1] at h
      have h2 : sumPairs st.road_index rest = none := by
        cases h2 : sumPairs st.road_index rest with
        | none => rfl
        | some sr => obtain ⟨sl, stt, sc⟩ := sr; rw [h2] at h; simp at h
      have hout : getA st.road_index a ≠ none := by
        intro hn
        unfold idxLookup at h1
        rw [hn] at h1
        simp at h1
      obtain ⟨d, hd⟩ := Option.ne_none_iff_exists'.mp hout
      rw [indexAccess_of_some hd]
      have hget : getA d b = some (l0, t0, c0) := by
        unfold idxLookup at h1
        rw [hd] at h1
        simpa using h1
      rw [hget]
      exact ih st _ _ _ h2

theorem sumPairs_none_of_missing (idx : RoadIndex) (pairs : List (Nat × Nat))
    (h : ∃ ab ∈ pairs, idxLookup idx ab.1 ab.2 = none) : sumPairs idx pairs = none := by
  induction pairs with
  | nil => simp at h
  | cons ab rest ih =>
    obtain ⟨p, hp, hnone⟩ := h
    obtain ⟨a, b⟩ := ab
    rcases List.mem_cons.mp hp with h1 | h1
    · subst h1
      simp only [sumPairs]
      rw [hnone]
    · have := ih ⟨p, h1, hnone⟩
      simp only [sumPairs]
      rw [this]
      cases idxLookup idx a b with
      | none => rfl
      | some w => obtain ⟨l0, t0, c0⟩ := w; rfl

theorem manualRouteParams_eq_sumPairs (idx : RoadIndex) :
    ∀ p : List Nat, manualRouteParams idx p = sumPairs idx (p.zip p.tail)
  | [] => by simp [manualRouteParams, sumPairs]
  | [a] => by simp [manualRouteParams, sumPairs]
  | a :: b :: rest => by
    simp only [manualRouteParams, List.tail_cons, List.zip_cons_cons, sumPairs]
    rw [manualRouteParams_eq_sumPairs idx (b :: rest)]
    rfl

theorem get_route_params_miss (st : RState) (p : List Nat) (tr : Nat × Nat × Nat)
    (hmiss : getA st.route_cache p = none)
    (hsum : sumPairs st.road_index (p.zip p.tail) = some tr) :
    get_route_params st p =
      (Except.ok tr, { st with route_cache := st.route_cache ++ [(p, tr)] }) := by
  obtain ⟨l, t, c⟩ := tr
  unfold get_route_params
  rw [hmiss]
  rw [routeParamsLoop_ok (p.zip p.tail) st 0 0 0 l t c hsum]
  simp

theorem get_route_params_hit (st : RState) (p : List Nat) (tr : Nat × Nat × Nat)
    (h : getA st.route_cache p = some tr) :
    get_route_params st p = (Except.ok tr, st) := by
  unfold get_route_params
  rw [h]

/-- C4: for every path p all of whose consecutive node pairs have edges in the
road index (equivalently: the manual edge-weight sum of the spec is defined),
get_route_params returns exactly that manually-summed (distance, time, cost)
triple, both on the first call (a cache miss, which stores the triple without
touching the road index) and on a later call with the same sequence (a cache
hit returning the memoized triple and leaving the state unchanged). -/
theorem c4_route_params_eq_manual_sum (st : RState) (p : List Nat) (tr : Nat × Nat × Nat)
    (hmiss : getA st.route_cache p = none)
    (hsum : manualRouteParams st.road_index p = some tr) :
    ∃ st2 : RState,
      get_route_params st p = (Except.ok tr, st2) ∧
      st2.road_index = st.road_index ∧
      get_route_params st2 p = (Except.ok tr, st2) := by
  have hsum2 : sumPairs st.road_index (p.zip p.tail) = some tr := by
    rw [← manualRouteParams_eq_sumPairs]
    exact hsum
  refine ⟨{ st with route_cache := st.route_cache ++ [(p, tr)] },
    get_route_params_miss st p tr hmiss hsum2, rfl, ?_⟩
  apply get_route_params_hit
  show getA (st.route_cache ++ [(p, tr)]) p = some tr
  rw [getA_append_of_none _ _ _ hmiss]
  simp [getA]

/-- Witness for C4 on the one-road graph 1-2 with weights (5, 1, 10). -/
theorem c4_route_params_eq_manual_sum_witness :
    getA (RState.mk (build_road_index (parse_roads [(1, 2, 5, 1, 10)])) []).route_cache
        [1, 2] = none ∧
    manualRouteParams (RState.mk (build_road_index (parse_roads [(1, 2, 5, 1, 10)])) []).road_index
        [1, 2] = some (5, 1, 10) ∧
    ∃ st2 : RState,
      get_route_params (RState.mk (build_road_index (parse_roads [(1, 2, 5, 1, 10)])) [])
          [1, 2] = (Except.ok (5, 1, 10), st2) ∧
      st2.road_index =
        (RState.mk (build_road_index (parse_roads [(1, 2, 5, 1, 10)])) []).road_index ∧
      get_route_params st2 [1, 2] = (Except.ok (5, 1, 10), st2) :=
  ⟨rfl, rfl,
    c4_route_params_eq_manual_sum
      (RState.mk (build_road_index (parse_roads [(1, 2, 5, 1, 10)])) []) [1, 2]
      (5, 1, 10) rfl rfl⟩

/-- C7: get_route_params is idempotent: whenever a call returns a triple and
leaves state st2, the immediately repeated call with the same route returns
the identical triple and the identical state st2, so it alters neither the
road index nor any existing cache entry. -/
theorem c7_route_params_idempotent (st st2 : RState) (p : List Nat) (tr : Nat × Nat × Nat)
    (h : get_route_params st p = (Except.ok tr, st2)) :
    get_route_params st2 p = (Except.ok tr, st2) := by
  unfold get_route_params at h
  cases hc : getA st.route_cache p with
  | some params =>
    rw [hc] at h
    simp only [Prod.mk.injEq, Except.ok.injEq] at h
    obtain ⟨h1, h2⟩ := h
    subst h1
    subst h2
    exact get_route_params_hit st p params hc
  | none =>
    rw [hc] at h
    cases hl : routeParamsLoop (p.zip p.tail) st 0 0 0 with
    | mk r stL =>
      rw [hl] at h
      cases r with
      | error m => simp at h
      | ok totals =>
        simp only [Prod.mk.injEq, Except.ok.injEq] at h
        obtain ⟨h1, h2⟩ := h
        have hstL : stL = st := routeParamsLoop_ok_state _ st stL 0 0 0 totals hl
        subst h1
        subst hstL
        apply get_route_params_hit
        rw [← h2]
        show getA (stL.route_cache ++ [(p, totals)]) p = some totals
        rw [getA_append_of_none _ _ _ hc]
        simp [getA]

/-- Witness for C7: a first call on the single-node route [5] succeeds and the
repeated call returns the same triple and state. -/
theorem c7_route_params_idempotent_witness :
    get_route_params (RState.mk [] []) [5] =
      (Except.ok (0, 0, 0), RState.mk [] [([5], (0, 0, 0))]) ∧
    get_route_params (RState.mk [] [([5], (0, 0, 0))]) [5] =
      (Except.ok (0, 0, 0), RState.mk [] [([5], (0, 0, 0))]) :=
  ⟨rfl, c7_route_params_idempotent (RState.mk [] []) (RState.mk [] [([5], (0, 0, 0))])
    [5] (0, 0, 0) rfl⟩

/-- C10: when the route is not cached and some consecutive pair has no edge in
the road index, get_route_params raises the missing-edge ValueError and leaves
the route cache exactly as it was; in particular no entry is stored under the
route's key, so a later call with the same route recomputes. -/
theorem c10_error_preserves_cache (st : RState) (p : List Nat)
    (hmiss : getA st.route_cache p = none)
    (hbad : ∃ ab ∈ p.zip p.tail, idxLookup st.road_index ab.1 ab.2 = none) :
    ∃ m st2, get_route_params st p = (Except.error m, st2) ∧
      st2.route_cache = st.route_cache ∧ getA st2.route_cache p = none := by
  have hs := sumPairs_none_of_missing st.road_index (p.zip p.tail) hbad
  obtain ⟨m, st2, hloop, hcache, _⟩ := routeParamsLoop_error (p.zip p.tail) st 0 0 0 hs
  refine ⟨m, st2, ?_, hcache, by rw [hcache]; exact hmiss⟩
  unfold get_route_params
  rw [hmiss, hloop]

/-- Witness for C10 at the empty state and the edgeless route [1, 9]. -/
theorem c10_error_preserves_cache_witness :
    ∃ m st2, get_route_params (RState.mk [] []) [1, 9] = (Except.error m, st2) ∧
      st2.route_cache = (RState.mk [] []).route_cache ∧
      getA st2.route_cache [1, 9] = none :=
  c10_error_preserves_cache (RState.mk [] []) [1, 9] rfl ⟨(1, 9), by decide, rfl⟩

/-- C5, corrected: the Route Cost Cache layer itself does abort loudly (a
missing edge on an uncached route makes get_route_params raise), but at the
orchestration layer the claim fails: calculate wraps the whole batch in a
blanket except-pass, so every error of the body — the cache's ValueError like
any other — is caught and ignored and no output at all is produced. -/
theorem c5_cache_raises_calculate_swallows :
    (∀ (st : RState) (p : List Nat), getA st.route_cache p = none →
      (∃ ab ∈ p.zip p.tail, idxLookup st.road_index ab.1 ab.2 = none) →
      ∃ m st2, get_route_params st p = (Except.error m, st2)) ∧
    (∀ cities roadSpecs requests m,
      calculateBody cities roadSpecs requests = Except.error m →
      calculate cities roadSpecs requests = none) := by
  constructor
  · intro st p hmiss hbad
    have hs := sumPairs_none_of_missing st.road_index (p.zip p.tail) hbad
    obtain ⟨m, st2, hloop, _, _⟩ := routeParamsLoop_error (p.zip p.tail) st 0 0 0 hs
    refine ⟨m, st2, ?_⟩
    unfold get_route_params
    rw [hmiss, hloop]
  · intro cities roadSpecs requests m h
    unfold calculate
    rw [h]

/-- Witness for the corrected C5: the cache raises on a missing edge, and a
batch whose body errors produces no output. -/
theorem c5_cache_raises_calculate_swallows_witness :
    (∃ m st2, get_route_params (RState.mk [] []) [1, 9] = (Except.error m, st2)) ∧
    calculate [(1, "A")] [] [("A", "B", [Crit.D])] = none :=
  ⟨c5_cache_raises_calculate_swallows.1 (RState.mk [] []) [1, 9] rfl ⟨(1, 9), by decide, rfl⟩,
   c5_cache_raises_calculate_swallows.2 [(1, "A")] [] [("A", "B", [Crit.D])]
     ("KeyError: " ++ "B") rfl⟩

/-- C5 counterexample: on a request naming an unknown city the body of
calculate raises, and calculate returns no output at all — the error is
caught and ignored by the blanket except-pass at the orchestration layer,
contradicting the claim that such errors are surfaced rather than swallowed. -/
theorem c5_counterexample :
    calculateBody [(1, "A")] [] [("A", "B", [Crit.D])] =
      Except.error ("KeyError: " ++ "B") ∧
    calculate [(1, "A")] [] [("A", "B", [Crit.D])] = none :=
  ⟨rfl, rfl⟩

/-- C9: a request with start equal to end costs (0, 0, 0) without the frontier
being expanded: dijkstra returns the single-node path and weight 0 for every
graph (the result does not depend on the graph at all, which is the formal
content of the frontier loop never relaxing an edge), and get_route_params on
the single-node path sums zero pairs, returning (0, 0, 0). -/
theorem c9_reflexive_request :
    (∀ (g : Graph) (s wIdx : Nat), dijkstra g s s wIdx = some ([s], 0)) ∧
    (∀ (st : RState) (s : Nat), getA st.route_cache [s] = none →
      get_route_params st [s] =
        (Except.ok (0, 0, 0),
          { st with route_cache := st.route_cache ++ [([s], (0, 0, 0))] })) := by
  constructor
  · intro g s wIdx
    have h : dijkstraLoop g s wIdx (g.length + 1 + 1) ⟨[(0, s)], [], [], [(s, 0)]⟩ =
        some (some ([s], 0)) := by
      simp [dijkstraLoop, popMin, minEntry, buildPath, getA]
    unfold dijkstra
    rw [show g.length + 2 = g.length + 1 + 1 from rfl, h]
  · intro st s hmiss
    have hs : sumPairs st.road_index ([s].zip [s].tail) = some (0, 0, 0) := by
      simp [sumPairs]
    exact get_route_params_miss st [s] (0, 0, 0) hmiss hs

/-- Witness for C9 at node 7 in the empty graph and empty state. -/
theorem c9_reflexive_request_witness :
    dijkstra [] 7 7 0 = some ([7], 0) ∧
    getA (RState.mk [] []).route_cache [7] = none ∧
    get_route_params (RState.mk [] []) [7] =
      (Except.ok (0, 0, 0), RState.mk [] [([7], (0, 0, 0))]) :=
  ⟨c9_reflexive_request.1 [] 7 0, rfl, c9_reflexive_request.2 (RState.mk [] []) 7 rfl⟩

theorem foldl_extract {α : Type} (h : α → Graph) (rs : List α) :
    ∀ acc : Graph,
      rs.foldl (fun g r => g ++ h r) acc = acc ++ rs.foldl (fun g r => g ++ h r) [] := by
  induction rs with
  | nil => intro acc; simp
  | cons r rest ih =>
    intro acc
    simp only [List.foldl_cons]
    rw [ih (acc ++ h r), ih ([] ++ h r)]
    simp [List.append_assoc]

theorem parse_roads_cons (r : RoadSpec) (rs : List RoadSpec) :
    parse_roads (r :: rs) = roadPair r ++ parse_roads rs := by
  unfold parse_roads
  simp only [List.foldl_cons]
  rw [foldl_extract roadPair rs ([] ++ roadPair r)]
  simp

theorem idxLookup_setIdx (idx : RoadIndex) (c n : Nat) (w : Nat × Nat × Nat) (a b : Nat) :
    idxLookup (setIdx idx c n w) a b =
      if a = c ∧ b = n then some w else idxLookup idx a b := by
  unfold setIdx idxLookup
  by_cases hac : a = c
  · subst hac
    rw [getA_setA_self]
    by_cases hbn : b = n
    · subst hbn
      simp [getA_setA_self]
    · rw [show ((some (setA ((getA idx a).getD []) n w)).bind fun d => getA d b) =
          getA (setA ((getA idx a).getD []) n w) b from rfl]
      rw [getA_setA_ne _ _ _ _ hbn]
      simp only [hbn, and_false, if_false]
      cases h2 : getA idx a with
      | none => simp [getA]
      | some d => simp
  · rw [getA_setA_ne _ _ _ _ hac]
    simp [hac]

theorem lastRec_nil (a b : Nat) : lastRec [] a b = none := rfl

theorem lastRec_cons (pr : Nat × Edge) (g : Graph) (a b : Nat) :
    lastRec (pr :: g) a b =
      match lastRec g a b with
      | some w => some w
      | none => if a = pr.1 ∧ b = pr.2.1 then some pr.2.2 else none := by
  by_cases hc : a = pr.1 ∧ b = pr.2.1
  · have hb : (pr.1 == a && pr.2.1 == b) = true := by
      simp [hc.1, hc.2]
    have h1 : List.filter (fun q => q.1 == a && q.2.1 == b) (pr :: g) =
        pr :: List.filter (fun q => q.1 == a && q.2.1 == b) g := by
      simp only [List.filter_cons, hb]
      simp
    unfold lastRec
    rw [h1, List.map_cons, List.getLast?_cons]
    cases hrest :
        (List.map (fun q => q.2.2) (List.filter (fun q => q.1 == a && q.2.1 == b) g)).getLast? with
    | some w => simp
    | none => simp [if_pos hc]
  · have hb : (pr.1 == a && pr.2.1 == b) = false := by
      by_cases h1 : pr.1 = a
      · by_cases h2 : pr.2.1 = b
        · exact absurd ⟨h1.symm, h2.symm⟩ hc
        · have hb2 : (pr.2.1 == b) = false := beq_eq_false_iff_ne.mpr h2
          simp [hb2]
      · have hb1 : (pr.1 == a) = false := beq_eq_false_iff_ne.mpr h1
        simp [hb1]
    have h1 : List.filter (fun q => q.1 == a && q.2.1 == b) (pr :: g) =
        List.filter (fun q => q.1 == a && q.2.1 == b) g := by
      simp only [List.filter_cons, hb]
      simp
    unfold lastRec
    rw [h1]
    cases hrest :
        (List.map (fun q => q.2.2) (List.filter (fun q => q.1 == a && q.2.1 == b) g)).getLast? with
    | some w => rfl
    | none => rw [if_neg hc]

theorem idxLookup_foldl (g : Graph) :
    ∀ (idx0 : RoadIndex) (a b : Nat),
      idxLookup (g.foldl (fun idx p => setIdx idx p.1 p.2.1 p.2.2) idx0) a b =
        match lastRec g a b with
        | some w => some w
        | none => idxLookup idx0 a b := by
  induction g with
  | nil =>
    intro idx0 a b
    rw [lastRec_nil]
    rfl
  | cons pr g ih =>
    intro idx0 a b
    simp only [List.foldl_cons]
    rw [ih, lastRec_cons]
    cases hg : lastRec g a b with
    | some w => rfl
    | none =>
      rw [idxLookup_setIdx]
      by_cases hc : a = pr.1 ∧ b = pr.2.1
      · rw [if_pos hc, if_pos hc]
      · rw [if_neg hc, if_neg hc]

theorem idxLookup_build (g : Graph) (a b : Nat) :
    idxLookup (build_road_index g) a b = lastRec g a b := by
  unfold build_road_index
  rw [idxLookup_foldl]
  cases h : lastRec g a b with
  | some w => rfl
  | none => rfl

theorem lastRec_append (g1 g2 : Graph) (a b : Nat) :
    lastRec (g1 ++ g2) a b =
      match lastRec g2 a b with
      | some w => some w
      | none => lastRec g1 a b := by
  induction g1 with
  | nil =>
    simp only [List.nil_append]
    cases h : lastRec g2 a b with
    | some w => rfl
    | none => rw [lastRec_nil]
  | cons pr g1 ih =>
    rw [List.cons_append, lastRec_cons, ih, lastRec_cons]
    cases h2 : lastRec g2 a b with
    | some w => rfl
    | none =>
      cases h1 : lastRec g1 a b with
      | some w => rfl
      | none => rfl

theorem lastRec_roadPair (c1 c2 l t c a b : Nat) :
    lastRec (roadPair (c1, c2, l, t, c)) a b =
      if (a = c2 ∧ b = c1) ∨ (a = c1 ∧ b = c2) then some (l, t, c) else none := by
  show lastRec ((c1, (c2, l, t, c)) :: [(c2, (c1, l, t, c))]) a b = _
  rw [lastRec_cons, lastRec_cons, lastRec_nil]
  by_cases h2 : a = c2 ∧ b = c1
  · rw [if_pos h2]
    rw [if_pos (Or.inl h2)]
  · rw [if_neg h2]
    by_cases h1 : a = c1 ∧ b = c2
    · rw [if_pos h1, if_pos (Or.inr h1)]
    · rw [if_neg h1, if_neg (by tauto)]

theorem lastRec_parse_roads_symm (rs : List RoadSpec) (a b : Nat) :
    lastRec (parse_roads rs) a b = lastRec (parse_roads rs) b a := by
  induction rs with
  | nil => rfl
  | cons r rest ih =>
    obtain ⟨c1, c2, l, t, c⟩ := r
    rw [parse_roads_cons, lastRec_append, lastRec_append, ih]
    cases h : lastRec (parse_roads rest) b a with
    | some w => rfl
    | none =>
      rw [lastRec_roadPair, lastRec_roadPair]
      by_cases h1 : (a = c2 ∧ b = c1) ∨ (a = c1 ∧ b = c2)
      · rw [if_pos h1, if_pos (by tauto)]
      · rw [if_neg h1, if_neg (by tauto)]

theorem mem_parse_roads (rs : List RoadSpec) (c1 c2 l t c : Nat)
    (h : (c1, c2, l, t, c) ∈ rs) :
    (c1, (c2, l, t, c)) ∈ parse_roads rs ∧ (c2, (c1, l, t, c)) ∈ parse_roads rs := by
  induction rs with
  | nil => simp at h
  | cons r rest ih =>
    rw [parse_roads_cons]
    rcases List.mem_cons.mp h with h1 | h1
    · subst h1
      constructor
      · exact List.mem_append_left _ (by simp [roadPair])
      · exact List.mem_append_left _ (by simp [roadPair])
    · obtain ⟨m1, m2⟩ := ih h1
      exact ⟨List.mem_append_right _ m1, List.mem_append_right _ m2⟩

theorem mem_adj_of_mem (g : Graph) (x : Nat) (e : Edge) (h : (x, e) ∈ g) : e ∈ adj g x := by
  unfold adj
  exact List.mem_map.mpr ⟨(x, e), List.mem_filter.mpr ⟨h, by simp⟩, rfl⟩

theorem lastRec_isSome_of_mem (g : Graph) (a b : Nat) (e : Edge) (h : (a, e) ∈ g)
    (hb : e.1 = b) : (lastRec g a b).isSome := by
  induction g with
  | nil => simp at h
  | cons pr rest ih =>
    rw [lastRec_cons]
    rcases List.mem_cons.mp h with h1 | h1
    · cases hrest : lastRec rest a b with
      | some w => simp
      | none =>
        have hpr : a = pr.1 ∧ b = pr.2.1 := by
          rw [← h1]
          exact ⟨rfl, hb.symm⟩
        rw [if_pos hpr]
        simp
    · have := ih h1
      cases hrest : lastRec rest a b with
      | some w => simp
      | none => rw [hrest] at this; simp at this

/-- C8: the parsed graph and the derived road index are symmetric: every road
line a-b with weights (l, t, c) puts the record (b, l, t, c) in a's adjacency
list and (a, l, t, c) in b's, and the road index resolves both (a, b) and
(b, a) (to the identical weight triple, namely the last record parsed between
those two cities). -/
theorem c8_symmetric_graph_and_index (rs : List RoadSpec) (a b l t c : Nat)
    (h : (a, b, l, t, c) ∈ rs) :
    (b, l, t, c) ∈ adj (parse_roads rs) a ∧
    (a, l, t, c) ∈ adj (parse_roads rs) b ∧
    (idxLookup (build_road_index (parse_roads rs)) a b).isSome ∧
    idxLookup (build_road_index (parse_roads rs)) a b =
      idxLookup (build_road_index (parse_roads rs)) b a := by
  obtain ⟨m1, m2⟩ := mem_parse_roads rs a b l t c h
  refine ⟨mem_adj_of_mem _ _ _ m1, mem_adj_of_mem _ _ _ m2, ?_, ?_⟩
  · rw [idxLookup_build]
    exact lastRec_isSome_of_mem _ a b _ m1 rfl
  · rw [idxLookup_build, idxLookup_build]
    exact lastRec_parse_roads_symm rs a b

/-- Witness for C8 on the single road line 1-2 with weights (5, 1, 10). -/
theorem c8_symmetric_graph_and_index_witness :
    (2, 5, 1, 10) ∈ adj (parse_roads [(1, 2, 5, 1, 10)]) 1 ∧
    (1, 5, 1, 10) ∈ adj (parse_roads [(1, 2, 5, 1, 10)]) 2 ∧
    (idxLookup (build_road_index (parse_roads [(1, 2, 5, 1, 10)])) 1 2).isSome ∧
    idxLookup (build_road_index (parse_roads [(1, 2, 5, 1, 10)])) 1 2 =
      idxLookup (build_road_index (parse_roads [(1, 2, 5, 1, 10)])) 2 1 :=
  c8_symmetric_graph_and_index [(1, 2, 5, 1, 10)] 1 2 5 1 10 (by decide)

theorem nodup_subset_length {l1 l2 : List Nat} (h1 : l1.Nodup) (h2 : ∀ x ∈ l1, x ∈ l2) :
    l1.length ≤ l2.length := by
  calc l1.length = l1.toFinset.card := (List.toFinset_card_of_nodup h1).symm
    _ ≤ l2.toFinset.card := Finset.card_le_card (fun x hx =>
        List.mem_toFinset.mpr (h2 x (List.mem_toFinset.mp hx)))
    _ ≤ l2.length := List.toFinset_card_le l2

theorem getA_isSome_mem_keys {α β : Type} [DecidableEq α] (l : List (α × β)) (k : α)
    (h : (getA l k).isSome) : k ∈ l.map Prod.fst := by
  induction l with
  | nil => simp [getA] at h
  | cons p rest ih =>
    obtain ⟨k2, v⟩ := p
    by_cases hk : k = k2
    · subst hk; simp
    · simp only [getA, if_neg hk] at h
      simp only [List.map_cons, List.mem_cons]
      exact Or.inr (ih h)

theorem mem_dropLast_or_getLast {p : List Nat} {x u : Nat} (hx : x ∈ p)
    (hl : p.getLast? = some u) : x ∈ p.dropLast ∨ x = u := by
  have h2 : p.dropLast ++ [u] = p := List.dropLast_append_getLast? u hl
  rw [← h2] at hx
  rcases List.mem_append.mp hx with h | h
  · exact Or.inl h
  · right; simpa using h

theorem chain_not_mem {p : List Nat} {u k : Nat} (visited : List Nat)
    (hdl : ∀ x ∈ p.dropLast, x ∈ visited) (hl : p.getLast? = some u)
    (hk : k ∉ visited) (hku : k ≠ u) : ∀ x ∈ p, x ≠ k := by
  intro x hx he
  subst he
  rcases mem_dropLast_or_getLast hx hl with h | h
  · exact hk (hdl x h)
  · exact hku h

theorem ChainVal_mono {g : Graph} {wIdx s : Nat} {parent : List (Nat × Nat)}
    {visited visited2 : List Nat} {n d : Nat}
    (h : ChainVal g wIdx s parent visited n d) (hsub : ∀ x ∈ visited, x ∈ visited2) :
    ChainVal g wIdx s parent visited2 n d := by
  obtain ⟨p, h1, h2, h3, h4, h5, h6, h7⟩ := h
  exact ⟨p, h1, h2, h3, h4, fun x hx => hsub x (h5 x hx), h6, h7⟩

theorem ChainVal_setA {g : Graph} {wIdx s : Nat} {parent : List (Nat × Nat)}
    {visited : List Nat} {n d k v : Nat}
    (h : ChainVal g wIdx s parent visited n d) (hk : k ∉ visited) (hnk : n ≠ k) :
    ChainVal g wIdx s (setA parent k v) visited n d := by
  obtain ⟨p, h1, h2, h3, h4, h5, h6, h7⟩ := h
  have hnotk : ∀ x ∈ p, x ≠ k := chain_not_mem visited h5 h3 hk (fun he => hnk he.symm)
  refine ⟨p, h1, h2, h3, h4, h5, fun x hx => getA_isSome_setA _ _ _ _ (h6 x hx), ?_⟩
  intro fuel hf
  have hall : ∀ x ∈ buildPath parent fuel n, x ≠ k := by
    rw [h7 fuel hf]; exact hnotk
  rw [buildPath_setA parent k v fuel n hall]
  exact h7 fuel hf

theorem ChainVal_extend {g : Graph} {wIdx s : Nat} {parent : List (Nat × Nat)}
    {visited : List Nat} {cn dc k wt : Nat}
    (h : ChainVal g wIdx s parent visited cn dc) (hcn : cn ∈ visited) (hk : k ∉ visited)
    (hedge : edgeW g wIdx cn k wt) :
    ChainVal g wIdx s (setA parent k cn) visited k (dc + wt) := by
  obtain ⟨p, h1, h2, h3, h4, h5, h6, h7⟩ := h
  have hpne : p ≠ [] := pathCost_ne_nil h1
  have hkp : ∀ x ∈ p, x ≠ k :=
    chain_not_mem visited h5 h3 hk (by intro he; subst he; exact hk hcn)
  refine ⟨p ++ [k], pathCost_append h1 cn k wt h3 hedge, ?_, List.getLast?_concat p, ?_, ?_, ?_, ?_⟩
  · rw [List.head?_append, h2]
    rfl
  · rw [List.nodup_append]
    refine ⟨h4, List.nodup_singleton k, ?_⟩
    intro x hx hx2
    simp only [List.mem_singleton] at hx2
    exact hkp x hx hx2
  · rw [List.dropLast_concat]
    intro x hx
    rcases mem_dropLast_or_getLast hx h3 with hmem | heq
    · exact h5 x hmem
    · rw [heq]; exact hcn
  · intro x hx
    cases p with
    | nil => exact absurd rfl hpne
    | cons a p2 =>
      simp only [List.cons_append, List.tail_cons] at hx
      rcases List.mem_append.mp hx with hmem | hmem
      · exact getA_isSome_setA _ _ _ _ (h6 x (by simpa using hmem))
      · simp only [List.mem_singleton] at hmem
        subst hmem
        rw [getA_setA_self]
        rfl
  · intro fuel hf
    have hlen : p.length + 1 ≤ fuel + 1 := by simpa using hf
    have hp1 : 1 ≤ p.length := by
      cases p
      · exact absurd rfl hpne
      · simp
    cases fuel with
    | zero => omega
    | succ f =>
      have hget : getA (setA parent k cn) k = some cn := getA_setA_self parent k cn
      show (match getA (setA parent k cn) k with
        | none => [k]
        | some pp => buildPath (setA parent k cn) f pp ++ [k]) = p ++ [k]
      rw [hget]
      show buildPath (setA parent k cn) f cn ++ [k] = p ++ [k]
      have hstab : ∀ x ∈ buildPath parent f cn, x ≠ k := by
        rw [h7 f (by omega)]; exact hkp
      rw [buildPath_setA parent k cn f cn hstab, h7 f (by omega)]

theorem relax_step_inv (g : Graph) (wIdx s e cw cn nbr l t c : Nat) (st : DState)
    (hInv : InvB g wIdx s e st)
    (hcn : cn ∈ st.visited)
    (hdc : getA st.dist cn = some cw)
    (hmem : (nbr, l, t, c) ∈ adj g cn)
    (hnbr : nbr ∉ st.visited)
    (hbetter : ∀ dn, getA st.dist nbr = some dn → cw + pick wIdx l t c < dn) :
    InvB g wIdx s e
      ⟨(cw + pick wIdx l t c, nbr) :: st.pq, st.visited,
        setA st.parent nbr cn, setA st.dist nbr (cw + pick wIdx l t c)⟩ := by
  have hns : nbr ≠ s := fun he => hnbr (he ▸ hInv.svis)
  refine ⟨keys_nodup_setA _ _ _ hInv.pkeys, ?_, ?_, hInv.svis, hInv.evis, ?_, ?_, ?_, ?_⟩
  · show getA (setA st.parent nbr cn) s = none
    rw [getA_setA_ne _ _ _ _ (fun he => hns he.symm)]
    exact hInv.pstart
  · show getA (setA st.dist nbr (cw + pick wIdx l t c)) s = some 0
    rw [getA_setA_ne _ _ _ _ (fun he => hns he.symm)]
    exact hInv.dstart
  · intro n d hd
    by_cases hn : n = nbr
    · subst hn
      rw [getA_setA_self] at hd
      injection hd with hd2
      rw [← hd2]
      exact ChainVal_extend (hInv.chain cn cw hdc) hcn hnbr ⟨l, t, c, hmem, rfl⟩
    · rw [getA_setA_ne _ _ _ _ hn] at hd
      exact ChainVal_setA (hInv.chain n d hd) hnbr hn
  · intro n d hnv hd
    by_cases hn : n = nbr
    · subst hn
      rw [getA_setA_self] at hd
      injection hd with hd2
      rw [← hd2]
      exact List.mem_cons_self _ _
    · rw [getA_setA_ne _ _ _ _ hn] at hd
      exact List.mem_cons.mpr (Or.inr (hInv.inpq n d hnv hd))
  · intro w2 n2 hm hnv
    rcases List.mem_cons.mp hm with h1 | h1
    · have h2 : w2 = cw + pick wIdx l t c ∧ n2 = nbr := by
        simpa [Prod.ext_iff] using h1
      obtain ⟨hw2, hn2⟩ := h2
      subst hw2
      subst hn2
      exact ⟨cw + pick wIdx l t c, getA_setA_self _ _ _, Nat.le_refl _⟩
    · by_cases hn : n2 = nbr
      · subst hn
        obtain ⟨dn, hdn, hle⟩ := hInv.pqdist w2 n2 h1 hnv
        have hlt := hbetter dn hdn
        exact ⟨cw + pick wIdx l t c, getA_setA_self _ _ _, by omega⟩
      · rw [getA_setA_ne _ _ _ _ hn]
        exact hInv.pqdist w2 n2 h1 hnv
  · intro v hv
    have hvn : v ≠ nbr := fun he => hnbr (he ▸ hv)
    show ∃ d, getA (setA st.dist nbr (cw + pick wIdx l t c)) v = some d ∧ _
    rw [getA_setA_ne _ _ _ _ hvn]
    exact hInv.vopt v hv

theorem relaxEdges_spec (g : Graph) (wIdx s e cw cn : Nat) :
    ∀ (es : List Edge) (st : DState),
      (∀ x ∈ es, x ∈ adj g cn) →
      cn ∈ st.visited →
      getA st.dist cn = some cw →
      InvB g wIdx s e st →
      InvB g wIdx s e (relaxEdges wIdx cw cn es st) ∧
      (relaxEdges wIdx cw cn es st).visited = st.visited ∧
      (∀ v ∈ st.visited, getA (relaxEdges wIdx cw cn es st).dist v = getA st.dist v) ∧
      (∀ n d, getA st.dist n = some d →
        ∃ d2, getA (relaxEdges wIdx cw cn es st).dist n = some d2 ∧ d2 ≤ d) ∧
      (∀ x ∈ es, ∃ db, getA (relaxEdges wIdx cw cn es st).dist x.1 = some db ∧
        db ≤ cw + pickE wIdx x) ∧
      (relaxEdges wIdx cw cn es st).pq.length ≤ st.pq.length + es.length := by
  intro es
  induction es with
  | nil =>
    intro st _ _ _ hInv
    refine ⟨hInv, rfl, fun v _ => rfl, fun n d hd => ⟨d, hd, Nat.le_refl d⟩, ?_, ?_⟩
    · intro x hx; simp at hx
    · simp [relaxEdges]
  | cons x rest ih =>
    obtain ⟨nbr, l, t, c⟩ := x
    intro st hes hcn hdc hInv
    have hmem : (nbr, l, t, c) ∈ adj g cn := hes _ (List.mem_cons_self _ _)
    have hesr : ∀ y ∈ rest, y ∈ adj g cn := fun y hy => hes y (List.mem_cons.mpr (Or.inr hy))
    by_cases hv : nbr ∈ st.visited
    · have hstep : relaxEdges wIdx cw cn ((nbr, l, t, c) :: rest) st =
          relaxEdges wIdx cw cn rest st := by
        simp only [relaxEdges, if_pos hv]
      rw [hstep]
      obtain ⟨hI, hV, hC, hD, hE, hL⟩ := ih st hesr hcn hdc hInv
      refine ⟨hI, hV, hC, hD, ?_, by simp only [List.length_cons]; omega⟩
      intro y hy
      rcases List.mem_cons.mp hy with h1 | h1
      · obtain ⟨db, hdb, hopt⟩ := hInv.vopt nbr hv
        obtain ⟨p, hpc, hh, hl2, _, _, _, _⟩ := hInv.chain cn cw hdc
        have hwalk : PathCost g wIdx (p ++ [nbr]) (cw + pick wIdx l t c) :=
          pathCost_append hpc cn nbr _ hl2 ⟨l, t, c, hmem, rfl⟩
        have hble : db ≤ cw + pick wIdx l t c := by
          apply hopt (p ++ [nbr]) _ hwalk
          · rw [List.head?_append, hh]; rfl
          · exact List.getLast?_concat p
        obtain ⟨db2, hdb2, hle2⟩ := hD nbr db hdb
        subst h1
        exact ⟨db2, hdb2, by simp only [pickE]; omega⟩
      · exact hE y h1
    · cases hgd : getA st.dist nbr with
      | some dn =>
        by_cases himp : cw + pick wIdx l t c < dn
        · have hstep : relaxEdges wIdx cw cn ((nbr, l, t, c) :: rest) st =
              relaxEdges wIdx cw cn rest
                ⟨(cw + pick wIdx l t c, nbr) :: st.pq, st.visited,
                  setA st.parent nbr cn, setA st.dist nbr (cw + pick wIdx l t c)⟩ := by
            simp only [relaxEdges, if_neg hv, hgd, if_pos himp]
          rw [hstep]
          have hInv1 := relax_step_inv g wIdx s e cw cn nbr l t c st hInv hcn hdc hmem hv
            (by intro dn2 hdn2; rw [hgd] at hdn2; injection hdn2 with h2; omega)
          have hcnn : cn ≠ nbr := fun he => hv (he ▸ hcn)
          have hdc1 : getA (setA st.dist nbr (cw + pick wIdx l t c)) cn = some cw := by
            rw [getA_setA_ne _ _ _ _ hcnn]; exact hdc
          obtain ⟨hI, hV, hC, hD, hE, hL⟩ :=
            ih ⟨(cw + pick wIdx l t c, nbr) :: st.pq, st.visited,
              setA st.parent nbr cn, setA st.dist nbr (cw + pick wIdx l t c)⟩
              hesr hcn hdc1 hInv1
          refine ⟨hI, hV, ?_, ?_, ?_, ?_⟩
          · intro v hv2
            have hvn : v ≠ nbr := fun he => hv (he ▸ hv2)
            rw [hC v hv2]
            exact getA_setA_ne _ _ _ _ hvn
          · intro n d hd
            by_cases hn : n = nbr
            · rw [hn] at hd ⊢
              rw [hgd] at hd
              injection hd with hd2
              obtain ⟨d2, hd2v, hd2le⟩ :=
                hD nbr (cw + pick wIdx l t c) (getA_setA_self _ _ _)
              exact ⟨d2, hd2v, by omega⟩
            · exact hD n d (by rw [getA_setA_ne _ _ _ _ hn]; exact hd)
          · intro y hy
            rcases List.mem_cons.mp hy with h1 | h1
            · obtain ⟨d2, hd2v, hd2le⟩ :=
                hD nbr (cw + pick wIdx l t c) (getA_setA_self _ _ _)
              subst h1
              exact ⟨d2, hd2v, by simp only [pickE]; omega⟩
            · exact hE y h1
          · have hL2 : (relaxEdges wIdx cw cn rest
                ⟨(cw + pick wIdx l t c, nbr) :: st.pq, st.visited,
                  setA st.parent nbr cn,
                  setA st.dist nbr (cw + pick wIdx l t c)⟩).pq.length ≤
                st.pq.length + 1 + rest.length := by
              simpa using hL
            simp only [List.length_cons]
            omega
        · have hstep : relaxEdges wIdx cw cn ((nbr, l, t, c) :: rest) st =
              relaxEdges wIdx cw cn rest st := by
            simp only [relaxEdges, if_neg hv, hgd, if_neg himp]
          rw [hstep]
          obtain ⟨hI, hV, hC, hD, hE, hL⟩ := ih st hesr hcn hdc hInv
          refine ⟨hI, hV, hC, hD, ?_, by simp only [List.length_cons]; omega⟩
          intro y hy
          rcases List.mem_cons.mp hy with h1 | h1
          · obtain ⟨d2, hd2v, hd2le⟩ := hD nbr dn hgd
            subst h1
            exact ⟨d2, hd2v, by simp only [pickE]; omega⟩
          · exact hE y h1
      | none =>
        have hstep : relaxEdges wIdx cw cn ((nbr, l, t, c) :: rest) st =
            relaxEdges wIdx cw cn rest
              ⟨(cw + pick wIdx l t c, nbr) :: st.pq, st.visited,
                setA st.parent nbr cn, setA st.dist nbr (cw + pick wIdx l t c)⟩ := by
          simp only [relaxEdges, if_neg hv, hgd]
        rw [hstep]
        have hInv1 := relax_step_inv g wIdx s e cw cn nbr l t c st hInv hcn hdc hmem hv
          (by intro dn2 hdn2; rw [hgd] at hdn2; cases hdn2)
        have hcnn : cn ≠ nbr := fun he => hv (he ▸ hcn)
        have hdc1 : getA (setA st.dist nbr (cw + pick wIdx l t c)) cn = some cw := by
          rw [getA_setA_ne _ _ _ _ hcnn]; exact hdc
        obtain ⟨hI, hV, hC, hD, hE, hL⟩ :=
          ih ⟨(cw + pick wIdx l t c, nbr) :: st.pq, st.visited,
            setA st.parent nbr cn, setA st.dist nbr (cw + pick wIdx l t c)⟩
            hesr hcn hdc1 hInv1
        refine ⟨hI, hV, ?_, ?_, ?_, ?_⟩
        · intro v hv2
          have hvn : v ≠ nbr := fun he => hv (he ▸ hv2)
          rw [hC v hv2]
          exact getA_setA_ne _ _ _ _ hvn
        · intro n d hd
          by_cases hn : n = nbr
          · rw [hn] at hd
            rw [hgd] at hd
            cases hd
          · exact hD n d (by rw [getA_setA_ne _ _ _ _ hn]; exact hd)
        · intro y hy
          rcases List.mem_cons.mp hy with h1 | h1
          · obtain ⟨d2, hd2v, hd2le⟩ :=
              hD nbr (cw + pick wIdx l t c) (getA_setA_self _ _ _)
            subst h1
            exact ⟨d2, hd2v, by simp only [pickE]; omega⟩
          · exact hE y h1
        · have hL2 : (relaxEdges wIdx cw cn rest
              ⟨(cw + pick wIdx l t c, nbr) :: st.pq, st.visited,
                setA st.parent nbr cn,
                setA st.dist nbr (cw + pick wIdx l t c)⟩).pq.length ≤
              st.pq.length + 1 + rest.length := by
            simpa using hL
          simp only [List.length_cons]
          omega

theorem crossingA {g : Graph} {wIdx s e : Nat} {st : DState}
    (hInv : InvB g wIdx s e st) (hRel : Relaxed g wIdx st) :
    ∀ (q : List Nat) (cq : Nat), PathCost g wIdx q cq →
      ∀ v dv, q.head? = some v → v ∈ st.visited → getA st.dist v = some dv →
      (∃ x ∈ q, x ∉ st.visited) →
      ∃ wq nq, (wq, nq) ∈ st.pq ∧ wq ≤ dv + cq := by
  intro q cq hq
  induction hq with
  | single a =>
    intro v dv hh hv hd hex
    obtain ⟨x, hx, hnx⟩ := hex
    simp only [List.mem_singleton] at hx
    simp only [List.head?_cons, Option.some.injEq] at hh
    exact absurd hv (by rw [← hh, ← hx]; exact hnx)
  | cons hedge hrest ih =>
    rename_i a b rest wt c0
    intro v dv hh hv hd hex
    simp only [List.head?_cons, Option.some.injEq] at hh
    subst hh
    obtain ⟨l0, t0, c0e, hmem, hpick⟩ := hedge
    obtain ⟨dv2, db, hdv2, hdb, hle⟩ := hRel a hv (b, l0, t0, c0e) hmem
    rw [hd] at hdv2
    injection hdv2 with hdv3
    have hwt : pickE wIdx (b, l0, t0, c0e) = wt := by
      simpa [pickE] using hpick
    rw [hwt] at hle
    rw [← hdv3] at hle
    by_cases hb : b ∈ st.visited
    · have hex2 : ∃ x ∈ b :: rest, x ∉ st.visited := by
        obtain ⟨x, hx, hnx⟩ := hex
        rcases List.mem_cons.mp hx with h1 | h1
        · subst h1; exact absurd hv hnx
        · exact ⟨x, h1, hnx⟩
      obtain ⟨wq, nq, hin, hwle⟩ := ih b db rfl hb hdb hex2
      exact ⟨wq, nq, hin, by omega⟩
    · exact ⟨db, b, hInv.inpq b db hb hdb, by omega⟩

theorem crossing {g : Graph} {wIdx s e : Nat} {st : DState}
    (hInv : InvB g wIdx s e st) (hRel : Relaxed g wIdx st) :
    ∀ (q : List Nat) (cq u : Nat), PathCost g wIdx q cq →
      q.head? = some s → q.getLast? = some u → u ∉ st.visited →
      ∃ wq nq, (wq, nq) ∈ st.pq ∧ wq ≤ cq := by
  intro q cq u hq hh hl hu
  have hex : ∃ x ∈ q, x ∉ st.visited := ⟨u, List.mem_of_getLast?_eq_some hl, hu⟩
  obtain ⟨wq, nq, hin, hwle⟩ :=
    crossingA hInv hRel q cq hq s 0 hh hInv.svis hInv.dstart hex
  exact ⟨wq, nq, hin, by omega⟩

theorem finalize_opt {g : Graph} {wIdx s e : Nat} {st : DState}
    (hInv : InvB g wIdx s e st) (hRel : Relaxed g wIdx st)
    {cw cn : Nat} {pq2 : List (Nat × Nat)}
    (hpop : popMin st.pq = some ((cw, cn), pq2)) (hcn : cn ∉ st.visited) :
    getA st.dist cn = some cw ∧ OptimalTo g wIdx s cn cw := by
  obtain ⟨hmem, _, hmin⟩ := popMin_spec hpop
  obtain ⟨d, hd, hdle⟩ := hInv.pqdist cw cn hmem hcn
  have hopt : OptimalTo g wIdx s cn cw := by
    intro q cq hq hh hl
    obtain ⟨wq, nq, hq2, hwle⟩ := crossing hInv hRel q cq cn hq hh hl hcn
    have hp := pairLe_fst_le (hmin (wq, nq) hq2)
    simp only at hp
    omega
  obtain ⟨p, hpc, hh, hl, _, _, _, _⟩ := hInv.chain cn d hd
  have h2 : cw ≤ d := hopt p d hpc hh hl
  have h3 : d = cw := by omega
  rw [h3] at hd
  exact ⟨hd, hopt⟩

theorem adj_length (g : Graph) (cn : Nat) :
    (adj g cn).length = (g.filter (fun p => p.1 == cn)).length := by
  unfold adj
  rw [List.length_map]

theorem filter_split (g : Graph) (cn : Nat) (vis : List Nat) (h : cn ∉ vis) :
    (g.filter (fun p => decide (p.1 ∉ vis))).length =
      (g.filter (fun p => p.1 == cn)).length +
      (g.filter (fun p => decide (p.1 ∉ cn :: vis))).length := by
  induction g with
  | nil => simp
  | cons pr g ih =>
    by_cases h1 : pr.1 = cn
    · have ha : decide (pr.1 ∉ vis) = true := by
        rw [h1]
        simpa using h
      have hb : (pr.1 == cn) = true := by simp [h1]
      have hc : decide (pr.1 ∉ cn :: vis) = false := by
        simp [h1]
      simp only [List.filter_cons, ha, hb, hc, Bool.false_eq_true, if_true, if_false,
        List.length_cons]
      omega
    · have hb : (pr.1 == cn) = false := by simp [h1]
      have heq : decide (pr.1 ∉ cn :: vis) = decide (pr.1 ∉ vis) := by
        simp [List.mem_cons, h1]
      by_cases h2 : pr.1 ∈ vis
      · have ha : decide (pr.1 ∉ vis) = false := by simp [h2]
        simp only [List.filter_cons, ha, hb, heq, Bool.false_eq_true, if_false]
        omega
      · have ha : decide (pr.1 ∉ vis) = true := by simp [h2]
        simp only [List.filter_cons, ha, hb, heq, Bool.false_eq_true, if_true, if_false,
        List.length_cons]
        omega

theorem relax_full (g : Graph) (wIdx s e cw cn : Nat) (stMid : DState)
    (hInvM : InvB g wIdx s e stMid)
    (hcnM : cn ∈ stMid.visited)
    (hdcM : getA stMid.dist cn = some cw)
    (hRelM : ∀ v, v ∈ stMid.visited → v ≠ cn → ∀ x, x ∈ adj g v →
      ∃ dv db, getA stMid.dist v = some dv ∧ getA stMid.dist x.1 = some db ∧
        db ≤ dv + pickE wIdx x) :
    InvB g wIdx s e (relaxEdges wIdx cw cn (adj g cn) stMid) ∧
    Relaxed g wIdx (relaxEdges wIdx cw cn (adj g cn) stMid) ∧
    (relaxEdges wIdx cw cn (adj g cn) stMid).pq.length ≤
      stMid.pq.length + (adj g cn).length ∧
    (relaxEdges wIdx cw cn (adj g cn) stMid).visited = stMid.visited := by
  obtain ⟨hI, hV, hC, hD, hE, hL⟩ :=
    relaxEdges_spec g wIdx s e cw cn (adj g cn) stMid (fun x hx => hx) hcnM hdcM hInvM
  refine ⟨hI, ?_, hL, hV⟩
  intro v hv x hx
  rw [hV] at hv
  by_cases hvc : v = cn
  · subst hvc
    obtain ⟨db, hdb, hdble⟩ := hE x hx
    exact ⟨cw, db, by rw [hC v hv]; exact hdcM, hdb, hdble⟩
  · obtain ⟨dv, db, hdv, hdb, hdble⟩ := hRelM v hv hvc x hx
    obtain ⟨db2, hdb2, hle2⟩ := hD x.1 db hdb
    exact ⟨dv, db2, by rw [hC v hv]; exact hdv, hdb2, by omega⟩

theorem dijkstraLoop_main (g : Graph) (wIdx s e : Nat) :
    ∀ (fuel : Nat) (st : DState),
      ((InvB g wIdx s e st ∧ Relaxed g wIdx st) ∨
        st = ⟨[(0, s)], [], [], [(s, 0)]⟩) →
      Mg g st < fuel →
      dijkstraLoop g e wIdx fuel st ≠ none ∧
      (dijkstraLoop g e wIdx fuel st = some none → ¬ Reaches g wIdx s e) ∧
      (∀ p tw, dijkstraLoop g e wIdx fuel st = some (some (p, tw)) →
        PathCost g wIdx p tw ∧ p.head? = some s ∧ p.getLast? = some e ∧
        OptimalTo g wIdx s e tw) := by
  intro fuel
  induction fuel with
  | zero => intro st _ hM; omega
  | succ f ih =>
    intro st hst hM
    cases hpop : popMin st.pq with
    | none =>
      have hpq : st.pq = [] := (popMin_none_iff st.pq).mp hpop
      have hres : dijkstraLoop g e wIdx (f + 1) st = some none := by
        simp [dijkstraLoop, hpop]
      rw [hres]
      refine ⟨by simp, ?_, by intro p tw h; simp at h⟩
      intro _ hreach
      obtain ⟨q, cq, hq, hh, hl⟩ := hreach
      rcases hst with ⟨hInv, hRel⟩ | hinit
      · obtain ⟨wq, nq, hin, _⟩ := crossing hInv hRel q cq e hq hh hl hInv.evis
        rw [hpq] at hin
        simp at hin
      · rw [hinit] at hpq
        simp at hpq
    | some m =>
      obtain ⟨⟨cw, cn⟩, pq2⟩ := m
      rcases hst with ⟨hInv, hRel⟩ | hinit
      · obtain ⟨hmem, hpq2, hmin⟩ := popMin_spec hpop
        have hlen2 : pq2.length = st.pq.length - 1 := by
          rw [hpq2]
          exact List.length_erase_of_mem hmem
        have hpqpos : 1 ≤ st.pq.length := List.length_pos.mpr (List.ne_nil_of_mem hmem)
        by_cases hvis : cn ∈ st.visited
        · have hres : dijkstraLoop g e wIdx (f + 1) st =
              dijkstraLoop g e wIdx f ⟨pq2, st.visited, st.parent, st.dist⟩ := by
            simp [dijkstraLoop, hpop, hvis]
          rw [hres]
          apply ih
          · left
            constructor
            · refine ⟨hInv.pkeys, hInv.pstart, hInv.dstart, hInv.svis, hInv.evis, ?_, ?_, ?_, ?_⟩
              · intro n d hd
                exact hInv.chain n d hd
              · intro n d hnv hd
                have hncn : n ≠ cn := fun h2 => hnv (h2 ▸ hvis)
                have hin := hInv.inpq n d hnv hd
                show (d, n) ∈ pq2
                rw [hpq2]
                exact (List.mem_erase_of_ne
                  (by intro he; exact hncn (by simpa using congrArg Prod.snd he))).mpr hin
              · intro w2 n2 hm2 hnv
                have hm3 : (w2, n2) ∈ st.pq := by
                  have : (w2, n2) ∈ pq2 := hm2
                  rw [hpq2] at this
                  exact List.mem_of_mem_erase this
                exact hInv.pqdist w2 n2 hm3 hnv
              · intro v hv
                exact hInv.vopt v hv
            · exact hRel
          · show Mg g ⟨pq2, st.visited, st.parent, st.dist⟩ < f
            unfold Mg at hM ⊢
            simp only at hM ⊢
            omega
        · obtain ⟨hdc, hopt⟩ := finalize_opt hInv hRel hpop hvis
          by_cases hend : cn = e
          · have hres : dijkstraLoop g e wIdx (f + 1) st =
                some (some (buildPath st.parent (st.parent.length + 1) cn, cw)) := by
              simp [dijkstraLoop, hpop, hvis, if_pos hend]
            rw [hres]
            refine ⟨by simp, by intro h; simp at h, ?_⟩
            intro p tw h
            simp only [Option.some.injEq, Prod.mk.injEq] at h
            obtain ⟨hp, htw⟩ := h
            obtain ⟨pp, hpc, hh, hl, hnd, hdl, htk, hbp⟩ := hInv.chain cn cw hdc
            have hppne : pp ≠ [] := pathCost_ne_nil hpc
            have htail_nodup : pp.tail.Nodup := hnd.sublist (List.tail_sublist pp)
            have htail_sub : ∀ x ∈ pp.tail, x ∈ st.parent.map Prod.fst :=
              fun x hx => getA_isSome_mem_keys _ _ (htk x hx)
            have hlen1 : pp.tail.length ≤ st.parent.length := by
              have h2 := nodup_subset_length htail_nodup htail_sub
              simpa using h2
            have hlenpp : pp.length ≤ st.parent.length + 1 := by
              have h3 : pp.length = pp.tail.length + 1 := by
                cases pp with
                | nil => exact absurd rfl hppne
                | cons a r => simp
              omega
            have hbp2 : buildPath st.parent (st.parent.length + 1) cn = pp :=
              hbp _ (by omega)
            rw [hbp2] at hp
            subst hp
            subst htw
            rw [← hend]
            exact ⟨hpc, hh, hl, hopt⟩
          · have hres : dijkstraLoop g e wIdx (f + 1) st =
                dijkstraLoop g e wIdx f
                  (relaxEdges wIdx cw cn (adj g cn)
                    ⟨pq2, cn :: st.visited, st.parent, st.dist⟩) := by
              simp [dijkstraLoop, hpop, hvis, hend]
            rw [hres]
            have hInvM : InvB g wIdx s e ⟨pq2, cn :: st.visited, st.parent, st.dist⟩ := by
              refine ⟨hInv.pkeys, hInv.pstart, hInv.dstart,
                List.mem_cons.mpr (Or.inr hInv.svis), ?_, ?_, ?_, ?_, ?_⟩
              · intro hmem2
                rcases List.mem_cons.mp hmem2 with h1 | h1
                · exact hend h1.symm
                · exact hInv.evis h1
              · intro n d hd
                exact ChainVal_mono (hInv.chain n d hd)
                  (fun x hx => List.mem_cons.mpr (Or.inr hx))
              · intro n d hnv hd
                have hnv2 : n ∉ st.visited := fun h2 => hnv (List.mem_cons.mpr (Or.inr h2))
                have hncn : n ≠ cn := fun h2 => hnv (by rw [h2]; exact List.mem_cons_self _ _)
                have hin := hInv.inpq n d hnv2 hd
                show (d, n) ∈ pq2
                rw [hpq2]
                exact (List.mem_erase_of_ne
                  (by intro he; exact hncn (by simpa using congrArg Prod.snd he))).mpr hin
              · intro w2 n2 hm2 hnv
                have hm3 : (w2, n2) ∈ st.pq := by
                  have h4 : (w2, n2) ∈ pq2 := hm2
                  rw [hpq2] at h4
                  exact List.mem_of_mem_erase h4
                exact hInv.pqdist w2 n2 hm3 (fun h2 => hnv (List.mem_cons.mpr (Or.inr h2)))
              · intro v hv
                rcases List.mem_cons.mp hv with h1 | h1
                · subst h1
                  exact ⟨cw, hdc, hopt⟩
                · exact hInv.vopt v h1
            have hRelM : ∀ v, v ∈ (⟨pq2, cn :: st.visited, st.parent, st.dist⟩ : DState).visited →
                v ≠ cn → ∀ x, x ∈ adj g v →
                ∃ dv db, getA (⟨pq2, cn :: st.visited, st.parent, st.dist⟩ : DState).dist v = some dv ∧
                  getA (⟨pq2, cn :: st.visited, st.parent, st.dist⟩ : DState).dist x.1 = some db ∧
                  db ≤ dv + pickE wIdx x := by
              intro v hv hvc x hx
              rcases List.mem_cons.mp hv with h1 | h1
              · exact absurd h1 hvc
              · exact hRel v h1 x hx
            obtain ⟨hI2, hR2, hL2, hV2⟩ :=
              relax_full g wIdx s e cw cn ⟨pq2, cn :: st.visited, st.parent, st.dist⟩
                hInvM (List.mem_cons_self _ _) hdc hRelM
            apply ih
            · exact Or.inl ⟨hI2, hR2⟩
            · have hsplit := filter_split g cn st.visited hvis
              have hadj := adj_length g cn
              have hV3 : (relaxEdges wIdx cw cn (adj g cn)
                  ⟨pq2, cn :: st.visited, st.parent, st.dist⟩).visited = cn :: st.visited := hV2
              have hL3 : (relaxEdges wIdx cw cn (adj g cn)
                  ⟨pq2, cn :: st.visited, st.parent, st.dist⟩).pq.length ≤
                  pq2.length + (adj g cn).length := hL2
              show Mg g _ < f
              unfold Mg at hM ⊢
              rw [hV3]
              omega
      · subst hinit
        by_cases hend : s = e
        · have hres : dijkstraLoop g e wIdx (f + 1) ⟨[(0, s)], [], [], [(s, 0)]⟩ =
              some (some ([s], 0)) := by
            simp [dijkstraLoop, popMin, minEntry, buildPath, getA, if_pos hend]
          rw [hres]
          refine ⟨by simp, by intro h; simp at h, ?_⟩
          intro p tw h
          simp only [Option.some.injEq, Prod.mk.injEq] at h
          obtain ⟨hp, htw⟩ := h
          subst hp
          subst htw
          rw [← hend]
          exact ⟨PathCost.single s, rfl, rfl, fun q c _ _ _ => Nat.zero_le c⟩
        · have hres : dijkstraLoop g e wIdx (f + 1) ⟨[(0, s)], [], [], [(s, 0)]⟩ =
              dijkstraLoop g e wIdx f
                (relaxEdges wIdx 0 s (adj g s) ⟨[], [s], [], [(s, 0)]⟩) := by
            simp [dijkstraLoop, popMin, minEntry, if_neg hend]
          rw [hres]
          have hInvM : InvB g wIdx s e ⟨[], [s], [], [(s, 0)]⟩ := by
            refine ⟨by simp, rfl, by simp [getA], List.mem_cons_self _ _, ?_, ?_, ?_, ?_, ?_⟩
            · intro hmem2
              rcases List.mem_cons.mp hmem2 with h1 | h1
              · exact hend h1.symm
              · simp at h1
            · intro n d hd
              have hns : n = s ∧ d = 0 := by
                by_cases hn : n = s
                · subst hn
                  simp [getA] at hd
                  exact ⟨rfl, hd.symm⟩
                · simp [getA, hn] at hd
              obtain ⟨hn, hdv⟩ := hns
              subst hn
              subst hdv
              refine ⟨[n], PathCost.single n, rfl, rfl, by simp, by simp, by simp, ?_⟩
              intro fuel _
              cases fuel with
              | zero => rfl
              | succ f2 => simp [buildPath, getA]
            · intro n d hnv hd
              have hn : n ≠ s := fun h2 => hnv (by rw [h2]; exact List.mem_cons_self _ _)
              simp [getA, hn] at hd
            · intro w2 n2 hm2
              simp at hm2
            · intro v hv
              rcases List.mem_cons.mp hv with h1 | h1
              · subst h1
                exact ⟨0, by simp [getA], fun q c _ _ _ => Nat.zero_le c⟩
              · simp at h1
          have hRelM : ∀ v, v ∈ (⟨[], [s], [], [(s, 0)]⟩ : DState).visited →
              v ≠ s → ∀ x, x ∈ adj g v →
              ∃ dv db, getA (⟨[], [s], [], [(s, 0)]⟩ : DState).dist v = some dv ∧
                getA (⟨[], [s], [], [(s, 0)]⟩ : DState).dist x.1 = some db ∧
                db ≤ dv + pickE wIdx x := by
            intro v hv hvc x hx
            rcases List.mem_cons.mp hv with h1 | h1
            · exact absurd h1 hvc
            · simp at h1
          have hdcM : getA (⟨[], [s], [], [(s, 0)]⟩ : DState).dist s = some 0 := by
            simp [getA]
          obtain ⟨hI2, hR2, hL2, hV2⟩ :=
            relax_full g wIdx s e 0 s ⟨[], [s], [], [(s, 0)]⟩
              hInvM (List.mem_cons_self _ _) hdcM hRelM
          apply ih
          · exact Or.inl ⟨hI2, hR2⟩
          · have hsplit := filter_split g s [] (by simp)
            have hadj := adj_length g s
            have hV3 : (relaxEdges wIdx 0 s (adj g s)
                ⟨[], [s], [], [(s, 0)]⟩).visited = [s] := hV2
            have hL3 : (relaxEdges wIdx 0 s (adj g s)
                ⟨[], [s], [], [(s, 0)]⟩).pq.length ≤ 0 + (adj g s).length := hL2
            show Mg g _ < f
            unfold Mg at hM ⊢
            rw [hV3]
            simp only at hM ⊢
            have hone : ([(0, s)] : List (Nat × Nat)).length = 1 := rfl
            omega

theorem Mg_init (g : Graph) (s : Nat) :
    Mg g (⟨[(0, s)], [], [], [(s, 0)]⟩ : DState) < g.length + 2 := by
  unfold Mg
  have h1 : (List.filter (fun p => decide (p.1 ∉ ([] : List Nat))) g).length ≤ g.length :=
    List.length_filter_le _ g
  have h2 : ([(0, s)] : List (Nat × Nat)).length = 1 := rfl
  simp only at h1 h2 ⊢
  omega

theorem dijkstra_main (g : Graph) (s e wIdx : Nat) :
    (dijkstra g s e wIdx = none ↔ ¬ Reaches g wIdx s e) ∧
    (∀ p tw, dijkstra g s e wIdx = some (p, tw) →
      PathCost g wIdx p tw ∧ p.head? = some s ∧ p.getLast? = some e ∧
      OptimalTo g wIdx s e tw) := by
  obtain ⟨h1, h2, h3⟩ := dijkstraLoop_main g wIdx s e (g.length + 2)
    ⟨[(0, s)], [], [], [(s, 0)]⟩ (Or.inr rfl) (Mg_init g s)
  constructor
  · constructor
    · intro hnone
      unfold dijkstra at hnone
      cases hr : dijkstraLoop g e wIdx (g.length + 2) ⟨[(0, s)], [], [], [(s, 0)]⟩ with
      | none => exact absurd hr h1
      | some r =>
        rw [hr] at hnone
        cases r with
        | none => exact h2 hr
        | some pr =>
          exact absurd hnone (by simp)
    · intro hnr
      unfold dijkstra
      cases hr : dijkstraLoop g e wIdx (g.length + 2) ⟨[(0, s)], [], [], [(s, 0)]⟩ with
      | none => rfl
      | some r =>
        cases r with
        | none => rfl
        | some pr =>
          obtain ⟨p, tw⟩ := pr
          have h4 := h3 p tw hr
          exact absurd ⟨p, tw, h4.1, h4.2.1, h4.2.2.1⟩ hnr
  · intro p tw h
    unfold dijkstra at h
    cases hr : dijkstraLoop g e wIdx (g.length + 2) ⟨[(0, s)], [], [], [(s, 0)]⟩ with
    | none => exact absurd hr h1
    | some r =>
      rw [hr] at h
      cases r with
      | none => exact absurd h (by simp)
      | some pr =>
        have hpr : pr = (p, tw) := by simpa using h
        rw [hpr] at hr
        exact h3 p tw hr

theorem mem_of_mem_adj (g : Graph) (x : Nat) (e2 : Edge) (h : e2 ∈ adj g x) : (x, e2) ∈ g := by
  unfold adj at h
  obtain ⟨pr, hpr, hsnd⟩ := List.mem_map.mp h
  obtain ⟨hmem, hfst⟩ := List.mem_filter.mp hpr
  have hx : pr.1 = x := by simpa using hfst
  have hpr2 : pr = (x, e2) := by
    rw [← hx, ← hsnd]
  rw [← hpr2]
  exact hmem

theorem sumPairs_isSome_of_all (idx : RoadIndex) :
    ∀ pairs : List (Nat × Nat),
      (∀ ab ∈ pairs, (idxLookup idx ab.1 ab.2).isSome) →
      ∃ tr, sumPairs idx pairs = some tr := by
  intro pairs
  induction pairs with
  | nil => intro _; exact ⟨(0, 0, 0), rfl⟩
  | cons ab rest ih =>
    obtain ⟨a, b⟩ := ab
    intro h
    have hh := h (a, b) (List.mem_cons_self _ _)
    obtain ⟨w, hw⟩ := Option.isSome_iff_exists.mp hh
    obtain ⟨l, t, c⟩ := w
    obtain ⟨tr, htr⟩ := ih (fun x hx => h x (List.mem_cons.mpr (Or.inr hx)))
    obtain ⟨tl, tt, tc⟩ := tr
    refine ⟨(l + tl, t + tt, c + tc), ?_⟩
    simp only [sumPairs, hw, htr]

theorem get_route_params_ok_of_valid (g : Graph) (st : RState) (p : List Nat)
    (hidx : st.road_index = build_road_index g)
    (hvalid : ∀ ab ∈ p.zip p.tail, ∃ l t c, (ab.2, l, t, c) ∈ adj g ab.1) :
    ∃ tr st2, get_route_params st p = (Except.ok tr, st2) ∧
      st2.road_index = st.road_index := by
  cases hc : getA st.route_cache p with
  | some tr => exact ⟨tr, st, get_route_params_hit st p tr hc, rfl⟩
  | none =>
    have hall : ∀ ab ∈ p.zip p.tail, (idxLookup st.road_index ab.1 ab.2).isSome := by
      intro ab hab
      obtain ⟨l, t, c, hmem⟩ := hvalid ab hab
      rw [hidx, idxLookup_build]
      exact lastRec_isSome_of_mem g ab.1 ab.2 (ab.2, l, t, c)
        (mem_of_mem_adj g ab.1 _ hmem) rfl
    obtain ⟨tr, htr⟩ := sumPairs_isSome_of_all st.road_index _ hall
    exact ⟨tr, _, get_route_params_miss st p tr hc htr, rfl⟩

/-- C1: for every graph (edge weights are naturals, hence non-negative) and
criterion index 0, 1 or 2, whenever dijkstra returns a path and total weight,
the path runs from start to end through existing edges with total
weight-under-criterion equal to the returned weight, and no path from start
to end has a smaller weight-under-criterion: the returned total is the true
minimum over all paths. -/
theorem c1_dijkstra_shortest (g : Graph) (s e wIdx : Nat) (hw : wIdx < 3)
    (p : List Nat) (tw : Nat) (h : dijkstra g s e wIdx = some (p, tw)) :
    PathCost g wIdx p tw ∧ p.head? = some s ∧ p.getLast? = some e ∧
    ∀ q c, PathCost g wIdx q c → q.head? = some s → q.getLast? = some e → tw ≤ c := by
  have h4 := (dijkstra_main g s e wIdx).2 p tw h
  exact ⟨h4.1, h4.2.1, h4.2.2.1, h4.2.2.2⟩

/-- Witness for C1 on the graph with the single road 1-2 of weights (5, 1, 10). -/
theorem c1_dijkstra_shortest_witness :
    (0 : Nat) < 3 ∧
    dijkstra [(1, (2, 5, 1, 10)), (2, (1, 5, 1, 10))] 1 2 0 = some ([1, 2], 5) ∧
    (PathCost [(1, (2, 5, 1, 10)), (2, (1, 5, 1, 10))] 0 [1, 2] 5 ∧
      ([1, 2] : List Nat).head? = some 1 ∧ ([1, 2] : List Nat).getLast? = some 2 ∧
      ∀ q c, PathCost [(1, (2, 5, 1, 10)), (2, (1, 5, 1, 10))] 0 q c →
        q.head? = some 1 → q.getLast? = some 2 → 5 ≤ c) :=
  ⟨by decide, rfl,
    c1_dijkstra_shortest [(1, (2, 5, 1, 10)), (2, (1, 5, 1, 10))] 1 2 0 (by decide)
      [1, 2] 5 rfl⟩

/-- C6: every path dijkstra returns is edge-valid by construction: each
consecutive pair of its nodes is an edge of the graph, hence resolvable in the
road index built from that graph, so get_route_params on a search-produced
path never reaches the missing-edge error branch. -/
theorem c6_search_paths_edge_valid (g : Graph) (s e wIdx : Nat) (p : List Nat) (tw : Nat)
    (h : dijkstra g s e wIdx = some (p, tw)) :
    (∀ ab ∈ p.zip p.tail, ∃ l t c, (ab.2, l, t, c) ∈ adj g ab.1) ∧
    (∀ ab ∈ p.zip p.tail, (idxLookup (build_road_index g) ab.1 ab.2).isSome) ∧
    (∀ st : RState, st.road_index = build_road_index g →
      ∃ tr st2, get_route_params st p = (Except.ok tr, st2)) := by
  have hpc := ((dijkstra_main g s e wIdx).2 p tw h).1
  have hvalid : ∀ ab ∈ p.zip p.tail, ∃ l t c, (ab.2, l, t, c) ∈ adj g ab.1 := by
    intro ab hab
    obtain ⟨wt, l, t, c, hmem, _⟩ := pathCost_pairs hpc ab hab
    exact ⟨l, t, c, hmem⟩
  refine ⟨hvalid, ?_, ?_⟩
  · intro ab hab
    obtain ⟨l, t, c, hmem⟩ := hvalid ab hab
    rw [idxLookup_build]
    exact lastRec_isSome_of_mem g ab.1 ab.2 _ (mem_of_mem_adj g ab.1 _ hmem) rfl
  · intro st hidx
    obtain ⟨tr, st2, hok, _⟩ := get_route_params_ok_of_valid g st p hidx hvalid
    exact ⟨tr, st2, hok⟩

/-- Witness for C6 on the graph with the single road 1-2. -/
theorem c6_search_paths_edge_valid_witness :
    dijkstra [(1, (2, 5, 1, 10)), (2, (1, 5, 1, 10))] 1 2 0 = some ([1, 2], 5) ∧
    ((∀ ab ∈ ([1, 2] : List Nat).zip ([1, 2] : List Nat).tail,
        ∃ l t c, (ab.2, l, t, c) ∈ adj [(1, (2, 5, 1, 10)), (2, (1, 5, 1, 10))] ab.1) ∧
      (∀ ab ∈ ([1, 2] : List Nat).zip ([1, 2] : List Nat).tail,
        (idxLookup (build_road_index [(1, (2, 5, 1, 10)), (2, (1, 5, 1, 10))])
          ab.1 ab.2).isSome) ∧
      (∀ st : RState,
        st.road_index = build_road_index [(1, (2, 5, 1, 10)), (2, (1, 5, 1, 10))] →
        ∃ tr st2, get_route_params st [1, 2] = (Except.ok tr, st2))) :=
  ⟨rfl, c6_search_paths_edge_valid [(1, (2, 5, 1, 10)), (2, (1, 5, 1, 10))] 1 2 0
    [1, 2] 5 rfl⟩

theorem natMin_mem : ∀ (xs : List Nat) (x : Nat), xs.foldl Nat.min x ∈ x :: xs := by
  intro xs
  induction xs with
  | nil => intro x; simp
  | cons y ys ih =>
    intro x
    simp only [List.foldl_cons]
    rcases List.mem_cons.mp (ih (Nat.min x y)) with h | h
    · by_cases hxy : x ≤ y
      · have hmin : Nat.min x y = x := Nat.min_eq_left hxy
        rw [h, hmin]
        exact List.mem_cons_self _ _
      · have hmin : Nat.min x y = y := Nat.min_eq_right (Nat.le_of_not_le hxy)
        rw [h, hmin]
        exact List.mem_cons.mpr (Or.inr (List.mem_cons_self _ _))
    · exact List.mem_cons.mpr (Or.inr (List.mem_cons.mpr (Or.inr h)))

theorem natMin_mem_cons (x : Nat) (xs : List Nat) : natMin (x :: xs) ∈ x :: xs :=
  natMin_mem xs x

theorem keepMin_ne_nil (cs : List Candidate) (cr : Crit) (h : cs ≠ []) :
    keepMin cs cr ≠ [] := by
  cases cs with
  | nil => exact absurd rfl h
  | cons c0 rest =>
    have hmem2 : natMin ((c0 :: rest).map (fun d => candVal d cr)) ∈
        (c0 :: rest).map (fun d => candVal d cr) := by
      simpa [natMin] using natMin_mem (rest.map (fun d => candVal d cr)) (candVal c0 cr)
    obtain ⟨cd, hcd, hval⟩ := List.mem_map.mp hmem2
    have hf : cd ∈ keepMin (c0 :: rest) cr :=
      List.mem_filter.mpr ⟨hcd, by simp [hval]⟩
    exact List.ne_nil_of_mem hf

theorem keepMin_val (cs : List Candidate) (cr : Crit) :
    ∀ cd ∈ keepMin cs cr, candVal cd cr = natMin (cs.map (fun d => candVal d cr)) := by
  intro cd hcd
  have h2 := List.mem_filter.mp hcd
  simpa using h2.2

theorem keepMin_subset (cs : List Candidate) (cr : Crit) :
    ∀ cd ∈ keepMin cs cr, cd ∈ cs := by
  intro cd hcd
  exact (List.mem_filter.mp hcd).1

theorem filterRounds_ne_nil (ps : List Crit) :
    ∀ cs : List Candidate, cs ≠ [] → filterRounds cs ps ≠ [] := by
  induction ps with
  | nil =>
    intro cs h
    simpa [filterRounds] using h
  | cons cr rest ih =>
    intro cs h
    have h1 : cs.isEmpty = false := by
      cases cs
      · exact absurd rfl h
      · rfl
    have hstep : filterRounds cs (cr :: rest) = filterRounds (keepMin cs cr) rest := by
      simp [filterRounds, h]
    rw [hstep]
    exact ih (keepMin cs cr) (keepMin_ne_nil cs cr h)

theorem filterRounds_DVS (cs : List Candidate) (h : cs ≠ []) :
    filterRounds cs [Crit.D, Crit.V, Crit.S] =
      keepMin (keepMin (keepMin cs Crit.D) Crit.V) Crit.S := by
  have h1 : cs.isEmpty = false := by
    cases cs
    · exact absurd rfl h
    · rfl
  have h2 := keepMin_ne_nil cs Crit.D h
  have h2e : (keepMin cs Crit.D).isEmpty = false := by
    cases hk : keepMin cs Crit.D
    · exact absurd hk h2
    · rfl
  have h3 := keepMin_ne_nil _ Crit.V h2
  have h3e : (keepMin (keepMin cs Crit.D) Crit.V).isEmpty = false := by
    cases hk : keepMin (keepMin cs Crit.D) Crit.V
    · exact absurd hk h3
    · rfl
  simp [filterRounds, h, h2, h3]

theorem collect_ok_nil :
    ∀ (inputs : List (Option (List Nat))) (st : RState) (seen : List (List Nat))
      (acc : List Candidate) (st2 : RState),
      collectLoop inputs st seen acc = (Except.ok [], st2) →
      acc = [] ∧ ∀ r, some r ∈ inputs → r ∈ seen := by
  intro inputs
  induction inputs with
  | nil =>
    intro st seen acc st2 h
    simp only [collectLoop, Prod.mk.injEq, Except.ok.injEq] at h
    exact ⟨h.1, by intro r hr; simp at hr⟩
  | cons i rest ih =>
    intro st seen acc st2 h
    cases i with
    | none =>
      obtain ⟨hacc, hrest⟩ := ih st seen acc st2 h
      refine ⟨hacc, ?_⟩
      intro r hr
      rcases List.mem_cons.mp hr with h1 | h1
      · exact absurd h1.symm (by simp)
      · exact hrest r h1
    | some r0 =>
      by_cases hseen : r0 ∈ seen
      · have hstep : collectLoop (some r0 :: rest) st seen acc = collectLoop rest st seen acc := by
          simp only [collectLoop, if_pos hseen]
        rw [hstep] at h
        obtain ⟨hacc, hrest⟩ := ih st seen acc st2 h
        refine ⟨hacc, ?_⟩
        intro r hr
        rcases List.mem_cons.mp hr with h1 | h1
        · have : r = r0 := by simpa using h1
          rw [this]
          exact hseen
        · exact hrest r h1
      · cases hg : get_route_params st r0 with
        | mk res st3 =>
          cases res with
          | ok tr =>
            obtain ⟨l, t, c⟩ := tr
            have hstep : collectLoop (some r0 :: rest) st seen acc =
                collectLoop rest st3 (seen ++ [r0]) (acc ++ [⟨r0, l, t, c⟩]) := by
              simp only [collectLoop, if_neg hseen, hg]
            rw [hstep] at h
            obtain ⟨hacc, _⟩ := ih st3 (seen ++ [r0]) (acc ++ [⟨r0, l, t, c⟩]) st2 h
            exact absurd hacc (by simp)
          | error m =>
            have hstep : collectLoop (some r0 :: rest) st seen acc = (Except.error m, st3) := by
              simp only [collectLoop, if_neg hseen, hg]
            rw [hstep] at h
            simp at h

theorem collectLoop_ok (g : Graph) :
    ∀ (inputs : List (Option (List Nat))) (st : RState) (seen : List (List Nat))
      (acc : List Candidate),
      st.road_index = build_road_index g →
      (∀ r ∈ inputs, ∀ p, r = some p →
        ∀ ab ∈ p.zip p.tail, ∃ l t c, (ab.2, l, t, c) ∈ adj g ab.1) →
      ∃ cands st2, collectLoop inputs st seen acc = (Except.ok cands, st2) ∧
        st2.road_index = st.road_index := by
  intro inputs
  induction inputs with
  | nil =>
    intro st seen acc _ _
    exact ⟨acc, st, rfl, rfl⟩
  | cons i rest ih =>
    intro st seen acc hidx hval
    cases i with
    | none =>
      exact ih st seen acc hidx (fun r hr => hval r (List.mem_cons.mpr (Or.inr hr)))
    | some r0 =>
      by_cases hseen : r0 ∈ seen
      · have hstep : collectLoop (some r0 :: rest) st seen acc = collectLoop rest st seen acc := by
          simp only [collectLoop, if_pos hseen]
        rw [hstep]
        exact ih st seen acc hidx (fun r hr => hval r (List.mem_cons.mpr (Or.inr hr)))
      · have hv := hval (some r0) (List.mem_cons_self _ _) r0 rfl
        obtain ⟨tr, st3, hok, hidx3⟩ := get_route_params_ok_of_valid g st r0 hidx hv
        obtain ⟨l, t, c⟩ := tr
        have hstep : collectLoop (some r0 :: rest) st seen acc =
            collectLoop rest st3 (seen ++ [r0]) (acc ++ [⟨r0, l, t, c⟩]) := by
          simp only [collectLoop, if_neg hseen, hok]
        rw [hstep]
        obtain ⟨cands, st4, hres, hidx4⟩ := ih st3 (seen ++ [r0]) (acc ++ [⟨r0, l, t, c⟩])
          (by rw [hidx3, hidx]) (fun r hr => hval r (List.mem_cons.mpr (Or.inr hr)))
        exact ⟨cands, st4, hres, by rw [hidx4, hidx3]⟩

theorem dijkstra_route_valid (g : Graph) (sid eid j : Nat) (p : List Nat)
    (h : (dijkstra g sid eid j).map Prod.fst = some p) :
    ∀ ab ∈ p.zip p.tail, ∃ l t c, (ab.2, l, t, c) ∈ adj g ab.1 := by
  cases hd : dijkstra g sid eid j with
  | none => rw [hd] at h; simp at h
  | some pr =>
    rw [hd] at h
    simp only [Option.map_some', Option.some.injEq] at h
    obtain ⟨pp, tw⟩ := pr
    have hpc := ((dijkstra_main g sid eid j).2 pp tw hd).1
    intro ab hab
    rw [← h] at hab
    obtain ⟨wt, l, t, c, hmem, _⟩ := pathCost_pairs hpc ab hab
    exact ⟨l, t, c, hmem⟩

/-- C3: dijkstra returns None (a value, not an exception) exactly when the
target is unreachable from the start, and find_compromise_route returns None
only when all three per-criterion searches return None. -/
theorem c3_none_iff_unreachable :
    (∀ (g : Graph) (s e wIdx : Nat), wIdx < 3 →
      (dijkstra g s e wIdx = none ↔ ¬ Reaches g wIdx s e)) ∧
    (∀ (g : Graph) (sid eid : Nat) (ps : List Crit) (st st2 : RState),
      find_compromise_route g sid eid ps st = (Except.ok none, st2) →
      ∀ i, i < 3 → dijkstra g sid eid i = none) := by
  constructor
  · intro g s e wIdx _
    exact (dijkstra_main g s e wIdx).1
  · intro g sid eid ps st st2 h i hi
    simp only [find_compromise_route] at h
    cases hcol : collectLoop [(dijkstra g sid eid 0).map Prod.fst,
        (dijkstra g sid eid 1).map Prod.fst, (dijkstra g sid eid 2).map Prod.fst]
        st [] [] with
    | mk res st3 =>
      rw [hcol] at h
      cases res with
      | error m => simp at h
      | ok cands =>
        cases cands with
        | nil =>
          obtain ⟨_, hall⟩ := collect_ok_nil _ _ _ _ _ hcol
          have hnone : (dijkstra g sid eid i).map Prod.fst = none := by
            cases hmj : (dijkstra g sid eid i).map Prod.fst with
            | none => rfl
            | some r =>
              have hin : some r ∈ [(dijkstra g sid eid 0).map Prod.fst,
                  (dijkstra g sid eid 1).map Prod.fst,
                  (dijkstra g sid eid 2).map Prod.fst] := by
                interval_cases i
                · rw [← hmj]; simp
                · rw [← hmj]; simp
                · rw [← hmj]; simp
              have h5 := hall r hin
              simp at h5
          cases hd : dijkstra g sid eid i with
          | none => rfl
          | some pr =>
            rw [hd] at hnone
            simp at hnone
        | cons c0 restc =>
          simp only [List.isEmpty_cons, Bool.false_eq_true, if_false] at h
          simp only [Prod.mk.injEq, Except.ok.injEq] at h
          obtain ⟨h6, _⟩ := h
          have h7 : (filterRounds (c0 :: restc) ps).head? = none := by
            cases hh : (filterRounds (c0 :: restc) ps).head? with
            | none => rfl
            | some cd => rw [hh] at h6; simp at h6
          have h8 : filterRounds (c0 :: restc) ps = [] := by
            cases hf : filterRounds (c0 :: restc) ps with
            | nil => rfl
            | cons a r => rw [hf] at h7; simp at h7
          exact absurd h8 (filterRounds_ne_nil ps _ (by simp))

/-- Witness for C3 in the empty graph: node 1 is unreachable from node 0, all
searches return None and the compromise is None. -/
theorem c3_none_iff_unreachable_witness :
    ((0 : Nat) < 3 ∧ (dijkstra [] 0 1 0 = none ↔ ¬ Reaches [] 0 0 1)) ∧
    (find_compromise_route [] 0 1 [Crit.D] (RState.mk [] []) =
      (Except.ok none, RState.mk [] []) ∧
      ∀ i, i < 3 → dijkstra [] 0 1 i = none) :=
  ⟨⟨by decide, c3_none_iff_unreachable.1 [] 0 1 0 (by decide)⟩,
   ⟨rfl, c3_none_iff_unreachable.2 [] 0 1 [Crit.D] (RState.mk [] []) (RState.mk [] []) rfl⟩⟩

theorem keepMin_iff (cs : List Candidate) (cr : Crit) (c : Candidate) :
    c ∈ keepMin cs cr ↔
      c ∈ cs ∧ candVal c cr = natMin (cs.map (fun d => candVal d cr)) := by
  simp [keepMin, List.mem_filter]

theorem mem_inputs_of_dijkstra_some (g : Graph) (sid eid j : Nat) (hj : j < 3)
    (pr : List Nat × Nat) (hd : dijkstra g sid eid j = some pr) :
    some pr.1 ∈ [(dijkstra g sid eid 0).map Prod.fst,
      (dijkstra g sid eid 1).map Prod.fst, (dijkstra g sid eid 2).map Prod.fst] := by
  have hm : (dijkstra g sid eid j).map Prod.fst = some pr.1 := by rw [hd]; rfl
  interval_cases j
  · rw [← hm]; simp
  · rw [← hm]; simp
  · rw [← hm]; simp

/-- C2: when at least one per-criterion search succeeds, find_compromise_route
with priority order [Д, В, С] reaches the nonempty candidate list, its
filtering is the three successive min-keeping rounds (distance, then time,
then cost), the returned route belongs to a survivor of all three rounds whose
distance is the minimum distance over all candidates, whose time is the
minimum among the distance-round survivors, and whose cost is the minimum
among the time-round survivors; and each round keeps exactly the candidates
whose value for the round's criterion equals the round's minimum. -/
theorem c2_priority_filter_rounds (g : Graph) (sid eid : Nat) (st : RState)
    (hidx : st.road_index = build_road_index g)
    (hsome : dijkstra g sid eid 0 ≠ none ∨ dijkstra g sid eid 1 ≠ none ∨
      dijkstra g sid eid 2 ≠ none) :
    ∃ (cands : List Candidate) (st2 : RState) (cd : Candidate),
      collectLoop [(dijkstra g sid eid 0).map Prod.fst,
        (dijkstra g sid eid 1).map Prod.fst,
        (dijkstra g sid eid 2).map Prod.fst] st [] [] = (Except.ok cands, st2) ∧
      cands ≠ [] ∧
      filterRounds cands [Crit.D, Crit.V, Crit.S] =
        keepMin (keepMin (keepMin cands Crit.D) Crit.V) Crit.S ∧
      find_compromise_route g sid eid [Crit.D, Crit.V, Crit.S] st =
        (Except.ok (some cd.route), st2) ∧
      cd ∈ keepMin (keepMin (keepMin cands Crit.D) Crit.V) Crit.S ∧
      cd.len = natMin (cands.map Candidate.len) ∧
      cd.time = natMin ((keepMin cands Crit.D).map Candidate.time) ∧
      cd.cost = natMin ((keepMin (keepMin cands Crit.D) Crit.V).map Candidate.cost) ∧
      (∀ (cs : List Candidate) (cr : Crit) (c : Candidate),
        c ∈ keepMin cs cr ↔
          c ∈ cs ∧ candVal c cr = natMin (cs.map (fun d => candVal d cr))) := by
  have hval : ∀ r ∈ [(dijkstra g sid eid 0).map Prod.fst,
      (dijkstra g sid eid 1).map Prod.fst,
      (dijkstra g sid eid 2).map Prod.fst], ∀ p, r = some p →
      ∀ ab ∈ p.zip p.tail, ∃ l t c, (ab.2, l, t, c) ∈ adj g ab.1 := by
    intro r hr p hrp
    simp only [List.mem_cons, List.not_mem_nil, or_false] at hr
    rcases hr with h | h | h
    · rw [h] at hrp
      exact dijkstra_route_valid g sid eid 0 p hrp
    · rw [h] at hrp
      exact dijkstra_route_valid g sid eid 1 p hrp
    · rw [h] at hrp
      exact dijkstra_route_valid g sid eid 2 p hrp
  obtain ⟨cands, st2, hcol, _⟩ := collectLoop_ok g [(dijkstra g sid eid 0).map Prod.fst,
    (dijkstra g sid eid 1).map Prod.fst,
    (dijkstra g sid eid 2).map Prod.fst] st [] [] hidx hval
  have hcne : cands ≠ [] := by
    intro hnil
    subst hnil
    obtain ⟨_, hall⟩ := collect_ok_nil _ _ _ _ _ hcol
    rcases hsome with h | h | h
    · rcases Option.ne_none_iff_exists'.mp h with ⟨pr, hd⟩
      exact absurd (hall pr.1 (mem_inputs_of_dijkstra_some g sid eid 0 (by decide) pr hd))
        (by simp)
    · rcases Option.ne_none_iff_exists'.mp h with ⟨pr, hd⟩
      exact absurd (hall pr.1 (mem_inputs_of_dijkstra_some g sid eid 1 (by decide) pr hd))
        (by simp)
    · rcases Option.ne_none_iff_exists'.mp h with ⟨pr, hd⟩
      exact absurd (hall pr.1 (mem_inputs_of_dijkstra_some g sid eid 2 (by decide) pr hd))
        (by simp)
  have hk1ne := keepMin_ne_nil cands Crit.D hcne
  have hk2ne := keepMin_ne_nil _ Crit.V hk1ne
  have hk3ne := keepMin_ne_nil _ Crit.S hk2ne
  obtain ⟨cd, krest, hk⟩ := List.exists_cons_of_ne_nil hk3ne
  have hfilter := filterRounds_DVS cands hcne
  have hemp : cands.isEmpty = false := by
    cases cands with
    | nil => exact absurd rfl hcne
    | cons a r => rfl
  have hfind : find_compromise_route g sid eid [Crit.D, Crit.V, Crit.S] st =
      (Except.ok (some cd.route), st2) := by
    simp only [find_compromise_route]
    rw [hcol]
    simp only [hemp, Bool.false_eq_true, if_false]
    rw [hfilter, hk]
    rfl
  have hcd3 : cd ∈ keepMin (keepMin (keepMin cands Crit.D) Crit.V) Crit.S := by
    rw [hk]
    exact List.mem_cons_self _ _
  have hcd2 := keepMin_subset _ Crit.S cd hcd3
  have hcd1 := keepMin_subset _ Crit.V cd hcd2
  have hlen := keepMin_val cands Crit.D cd hcd1
  have htime := keepMin_val _ Crit.V cd hcd2
  have hcost := keepMin_val _ Crit.S cd hcd3
  refine ⟨cands, st2, cd, hcol, hcne, hfilter, hfind, hcd3, ?_, ?_, ?_,
    fun cs cr c => keepMin_iff cs cr c⟩
  · simpa [candVal] using hlen
  · simpa [candVal] using htime
  · simpa [candVal] using hcost

/-- Witness for C2 on the one-road network 1-2: the hypotheses hold concretely
and the filtering-round characterization follows. -/
theorem c2_priority_filter_rounds_witness :
    (RState.mk (build_road_index (parse_roads [(1, 2, 5, 1, 10)])) []).road_index =
        build_road_index (parse_roads [(1, 2, 5, 1, 10)]) ∧
    dijkstra (parse_roads [(1, 2, 5, 1, 10)]) 1 2 0 ≠ none ∧
    (∃ (cands : List Candidate) (st2 : RState) (cd : Candidate),
      collectLoop [(dijkstra (parse_roads [(1, 2, 5, 1, 10)]) 1 2 0).map Prod.fst,
        (dijkstra (parse_roads [(1, 2, 5, 1, 10)]) 1 2 1).map Prod.fst,
        (dijkstra (parse_roads [(1, 2, 5, 1, 10)]) 1 2 2).map Prod.fst]
        (RState.mk (build_road_index (parse_roads [(1, 2, 5, 1, 10)])) []) [] [] =
        (Except.ok cands, st2) ∧
      cands ≠ [] ∧
      filterRounds cands [Crit.D, Crit.V, Crit.S] =
        keepMin (keepMin (keepMin cands Crit.D) Crit.V) Crit.S ∧
      find_compromise_route (parse_roads [(1, 2, 5, 1, 10)]) 1 2
        [Crit.D, Crit.V, Crit.S]
        (RState.mk (build_road_index (parse_roads [(1, 2, 5, 1, 10)])) []) =
        (Except.ok (some cd.route), st2) ∧
      cd ∈ keepMin (keepMin (keepMin cands Crit.D) Crit.V) Crit.S ∧
      cd.len = natMin (cands.map Candidate.len) ∧
      cd.time = natMin ((keepMin cands Crit.D).map Candidate.time) ∧
      cd.cost = natMin ((keepMin (keepMin cands Crit.D) Crit.V).map Candidate.cost) ∧
      (∀ (cs : List Candidate) (cr : Crit) (c : Candidate),
        c ∈ keepMin cs cr ↔
          c ∈ cs ∧ candVal c cr = natMin (cs.map (fun d => candVal d cr)))) :=
  ⟨rfl, by decide,
   c2_priority_filter_rounds (parse_roads [(1, 2, 5, 1, 10)]) 1 2
     (RState.mk (build_road_index (parse_roads [(1, 2, 5, 1, 10)])) []) rfl
     (Or.inl (by decide))⟩
